import Mathlib

/-!
# Verification of the Raycast ↔ After Effects bridge utilities

A shallow embedding of the bridge module (queue submitter, host-side
consumer-loop script, on-demand runner, installer) together with proofs
about the behaviours claimed in the specification.

Conventions used throughout:

* The producer side (TypeScript) and the host side (the generated
  ExtendScript consumer loop) are modelled as pure functions over explicit
  states, together with explicit traces of filesystem operations where a
  claim talks about side effects.
* Host capabilities that live behind the automation boundary (the After
  Effects project, `importFile`, `eval`, the AppleScript `osascript`
  invocations) are modelled as oracle parameters, exactly as the spec
  directs ("only model the call boundary").
* Clock values are milliseconds as natural numbers.  The user's home
  directory is abbreviated to the path segment `HOME`.

The file is laid out as definitions first, then all lemmas and theorems.
-/

namespace Bridge

/-! ## Command payload encoding (queueCommand) and the consumer's read step

`queueCommand` persists a command as `content + "\n"`.  The consumer loop
reads a queue file and normalises it with the ExtendScript statement
`content = String(content).replace(/\s+$/, '')`, i.e. it strips every
trailing whitespace character (in the JavaScript `\s` class). -/

/-- Whitespace per the JavaScript regular-expression class `\s`
(ECMAScript WhiteSpace ∪ LineTerminator). -/
def isJsWhitespace (c : Char) : Bool :=
  let n := c.toNat
  n == 0x09 || n == 0x0a || n == 0x0b || n == 0x0c || n == 0x0d ||
  n == 0x20 || n == 0xa0 || n == 0x1680 ||
  (0x2000 ≤ n && n ≤ 0x200a) ||
  n == 0x2028 || n == 0x2029 || n == 0x202f || n == 0x205f ||
  n == 0x3000 || n == 0xfeff

/-- The payload `queueCommand` writes for a command with the given content:
`fs.writeFileSync(cmdFile, content + "\n", ...)`. -/
def queueCommandPayload (content : String) : String :=
  content ++ "\n"

/-- Strip every trailing JS-whitespace character, the effect of
`String(content).replace(/\s+$/, '')`. -/
def stripTrailingWhitespace (s : String) : String :=
  ⟨(s.data.reverse.dropWhile isJsWhitespace).reverse⟩

/-- The consumer loop's read step recovers this string from a queue file's
raw content (`rbProcess`, after `f.read()`). -/
def bridgeReadContent (raw : String) : String :=
  stripTrailingWhitespace raw

/-! ## The host-side consumer loop (`getUnifiedBridgeCode`)

The generated ExtendScript installs `rbProcess` as a timer callback
(`app.scheduleTask('rbProcess()', 5000, true)`) and runs
`rbCleanupOldFiles()` once when the script starts.  We model the queue
directory as a list of files in directory-listing order (the order
`Folder.getFiles` reports), and the host capabilities reached inside a
tick — the active-composition selection check, `app.project`, and the
dispatch of a job (importFile / eval) — as an oracle `HostEnv`.

A queue entry records the data the script can observe about it: its name,
whether the `*.cmd` / `*.jsx` pattern matched it, its modification time,
its raw content, whether it is a plain file (`f instanceof File`), and
whether reading it fails (the `f.open/f.read` try/catch). -/

/-- Which `getFiles` pattern a queue entry matches. -/
inductive QFileType where
  | cmd
  | jsx
  | other
deriving DecidableEq, Repr

/-- One entry of the queue directory, as observed by the consumer loop. -/
structure QFile where
  name : String
  ftype : QFileType
  /-- `f.modified.getTime()`, in ms. -/
  mtime : Nat
  /-- Raw file content, as returned by `f.read()`. -/
  content : String
  /-- `f instanceof File` (false for a subdirectory). -/
  isFile : Bool
  /-- Whether `f.open('r'); f.read()` throws for this entry. -/
  readFails : Bool
deriving DecidableEq, Repr

/-- The queue directory: whether it exists, and its entries in
directory-listing order. -/
structure QueueState where
  queueDirExists : Bool
  files : List QFile
deriving DecidableEq, Repr

/-- Result of dispatching one job inside the tick's inner `try`:
`ok` — the branch ran to the `ok=true` statement; `notOk` — the branch
completed without an exception but never set `ok=true` (e.g. an audio
file imported with no active composition); `raise` — an exception was thrown
(swallowed by the `catch`, leaving `ok=false`). -/
inductive DispatchOutcome where
  | ok
  | notOk
  | raise
deriving DecidableEq, Repr

/-- Host-side capabilities consumed by one tick, as an oracle. -/
structure HostEnv where
  /-- `app.project && app.project.activeItem` is a `CompItem` with
  `selectedLayers.length > 0`. -/
  hasSelection : Bool
  /-- `app.project` is non-null. -/
  hasProject : Bool
  /-- Outcome of the dispatch branch for a file of the given kind with the
  given (already stripped) content. -/
  dispatch : QFileType → String → DispatchOutcome

/-- Filesystem-visible actions a tick (or the startup sweep) performs on
the queue directory. -/
inductive QEffect where
  | mkQueueDir
  | readFile (name : String)
  | removeFile (name : String)
  | dispatched (name : String)
deriving DecidableEq, Repr

/-- Name of the Stop Flag sentinel file. -/
def stopFlagName : String := "STOP_BRIDGE.txt"

/-- `new File(queue + '/STOP_BRIDGE.txt').exists`. -/
def hasStopFlag (s : QueueState) : Bool :=
  s.files.any (fun f => f.name == stopFlagName)

/-- State after `rbEnsureDir`: the queue directory exists. -/
def ensuredState (s : QueueState) : QueueState :=
  if s.queueDirExists then s else { s with queueDirExists := true }

/-- Effects of `rbEnsureDir`: a directory creation iff the queue directory
was missing. -/
def ensureEffects (s : QueueState) : List QEffect :=
  if s.queueDirExists then [] else [.mkQueueDir]

/-- `rbEnsureDir`: create the queue directory if it does not exist. -/
def rbEnsureDir (s : QueueState) : QueueState × List QEffect :=
  (ensuredState s, ensureEffects s)

/-- The TTL window: `var maxAge = 5 * 60 * 1000`. -/
def maxAgeMs : Nat := 5 * 60 * 1000

/-- `rbCleanupOldFiles`: runs once at script startup; removes every file of
the queue directory strictly older than `maxAgeMs`.  (With `Nat`
subtraction, a file whose mtime lies in the future has age 0, matching the
signed comparison `now - f.modified.getTime() > maxAge` being false.) -/
def rbCleanupOldFiles (s : QueueState) (now : Nat) : QueueState × List QEffect :=
  let s1 := ensuredState s
  let removed := s1.files.filter (fun f => maxAgeMs < now - f.mtime)
  ({ s1 with files := s1.files.filter (fun f => ¬ (maxAgeMs < now - f.mtime)) },
   ensureEffects s ++ removed.map (fun f => .removeFile f.name))

/-- The `cmd`-then-`jsx` work list built by the tick:
`allFiles = cmdFiles ++ jsxFiles`. -/
def tickWorkList (s : QueueState) : List QFile :=
  s.files.filter (fun f => f.ftype == .cmd) ++ s.files.filter (fun f => f.ftype == .jsx)

/-- The single file a tick selects: `allFiles[0]`. -/
def selectedFile (s : QueueState) : Option QFile :=
  (tickWorkList s).head?

/-- One tick of the consumer loop (`rbProcess`).  Returns the queue state
after the tick and the trace of filesystem actions performed on the queue
directory. -/
def rbProcess (env : HostEnv) (s : QueueState) : QueueState × List QEffect :=
  let s1 := ensuredState s
  let e1 := ensureEffects s
  if hasStopFlag s1 then (s1, e1)
  else if env.hasSelection then (s1, e1)
  else
    match selectedFile s1 with
    | none => (s1, e1)
    | some f =>
      if f.isFile = false then (s1, e1)
      else if f.readFails then (s1, e1 ++ [.readFile f.name])
      else
        let content := bridgeReadContent f.content
        if content = "" then (s1, e1 ++ [.readFile f.name])
        else if env.hasProject = false then (s1, e1 ++ [.readFile f.name])
        else
          match env.dispatch f.ftype content with
          | .ok =>
            ({ s1 with files := s1.files.erase f },
             e1 ++ [.readFile f.name, .dispatched f.name, .removeFile f.name])
          | .notOk => (s1, e1 ++ [.readFile f.name, .dispatched f.name])
          | .raise => (s1, e1 ++ [.readFile f.name, .dispatched f.name])

/-- The re-arm interval of the consumer loop's timer:
`app.scheduleTask('rbProcess()', 5000, true)`. -/
def tickIntervalMs : Nat := 5000

/-! ## Producer-side filesystem traces

For the submitter (`queueCommand`) and the on-demand runner
(`runOnDemand`) the claims are about which filesystem operations happen
and in which order, so both are modelled as emitters of operation traces.
Paths are plain strings rooted at the segment `HOME`. -/

/-- One producer-side filesystem / automation operation. -/
inductive FsOp where
  | mkdirp (path : String)
  | writeFile (path : String) (content : String)
  | rename (src : String) (dst : String)
  | readFile (path : String)
  | unlink (path : String)
  /-- One synchronous `osascript` automation call. -/
  | invoke (description : String)
  | sleep (ms : Nat)
deriving DecidableEq, Repr

/-- `~/Library/Application Support/raycast-ae-bridge`. -/
def bridgeDirPath : String := "HOME/Library/Application Support/raycast-ae-bridge"

/-- `getBridgeQueueDir()`. -/
def queueDirPath : String := bridgeDirPath ++ "/queue"

/-- The jobs directory used by `runOnDemand`. -/
def jobsDirPath : String := bridgeDirPath ++ "/jobs"

/-- The inbox directory used by `runOnDemand`'s fallback branch. -/
def inboxDirPath : String := bridgeDirPath ++ "/inbox"

/-- `inbox/cmd.json`. -/
def inboxCmdPath : String := inboxDirPath ++ "/cmd.json"

/-- The queue descriptor path `queueCommand` writes:
`<queue>/<Date.now()>-<random>.<ext>`.  The unique
timestamp-random stem is a parameter. -/
def queueDescriptorPath (stem : String) (ext : String) : String :=
  queueDirPath ++ "/" ++ stem ++ "." ++ ext

/-- The trace of filesystem operations `queueCommand(content, ext, _)`
performs: `fs.mkdirSync(queue, {recursive:true})` then a single
`fs.writeFileSync(cmdFile, content + "\n")`. -/
def queueCommandOps (content : String) (stem : String) (ext : String) : List FsOp :=
  [.mkdirp queueDirPath,
   .writeFile (queueDescriptorPath stem ext) (queueCommandPayload content)]

/-- Whether a trace contains a rename onto the given destination path. -/
def hasRenameTo (ops : List FsOp) (dst : String) : Bool :=
  ops.any fun op =>
    match op with
    | .rename _ d => d == dst
    | _ => false

/-- Whether a trace realises a write-to-temp-then-rename of the given final
path: some temporary path is written and later renamed onto the final
path. -/
def writesViaTempThenRename (ops : List FsOp) (final : String) : Bool :=
  (List.range ops.length).any fun i =>
    match ops.get? i with
    | some (.rename src d) =>
      d == final &&
      (List.range i).any fun j =>
        match ops.get? j with
        | some (.writeFile p _) => p == src
        | _ => false
    | _ => false

/-! ### runOnDemand -/

/-- The on-demand command union (`OnDemandCommand`). -/
inductive OnDemandCommand where
  | importAudio (path : String) (requireActiveComp : Bool)
  | runJsxText (code : String)
  | runJsxFile (path : String)
deriving DecidableEq, Repr

/-- The successful result record of the direct branch:
`{ ok: true, result: { requestId, operation, elapsedMs } }`. -/
structure OnDemandResult where
  ok : Bool
  requestId : String
  operation : String
  elapsedMs : Nat
deriving DecidableEq, Repr

/-- What a `runOnDemand` call returns on success. -/
inductive RODReturn where
  /-- The direct branch's literal result record. -/
  | direct (r : OnDemandResult)
  /-- The fallback branch's `JSON.parse` of the artifact text. -/
  | parsedArtifact (txt : String)
deriving DecidableEq, Repr

/-- The distinct error conditions `runOnDemand` can raise. -/
inductive RODError where
  /-- `"After Effects is not running. Please open After Effects first."` -/
  | notRunning
  /-- An `osascript` automation call exited non-zero. -/
  | appleScriptFailed
  /-- `"Timed out waiting for After Effects"`. -/
  | timedOut
deriving DecidableEq, Repr

/-- The ambient world `runOnDemand` interacts with, as an oracle: host
liveness, the exit status of each automation call, and when (ms after the
poll loop starts) and with which text the result artifact becomes
readable. -/
structure RODEnv where
  running : Bool
  /-- Exit status of the direct branch's `DoScriptFile` call. -/
  fastInvokeOk : Bool
  /-- Exit status of the fallback branch's `aelistener` call. -/
  listenerInvokeOk : Bool
  /-- Poll-loop time (ms since `start`) at which the artifact (or its
  `.tmp` variant) becomes readable and parseable. -/
  artifactAppearAt : Nat
  /-- The artifact text eventually read. -/
  artifactContent : String
deriving DecidableEq, Repr

/-- `rb_<id>.json` descriptor path of a request. -/
def cmdPathOf (rid : String) : String :=
  jobsDirPath ++ "/rb_" ++ rid ++ ".json"

/-- `rb_<id>.done.json` artifact path of a request. -/
def artifactPathOf (rid : String) : String :=
  jobsDirPath ++ "/rb_" ++ rid ++ ".done.json"

/-- `rb_<id>_direct.jsx`, the throwaway script of the direct branch. -/
def directJsxPathOf (rid : String) : String :=
  jobsDirPath ++ "/rb_" ++ rid ++ "_direct.jsx"

/-- The path escaping applied before splicing an audio path into the
generated import script:
`cmd.path.replace(/\\/g, "\\\\").replace(/'/g, "\\'")`. -/
def escapeForJsx (s : String) : String :=
  (s.replace "\\" "\\\\").replace "\x27" "\\\x27"

/-- The generated import-audio script of the direct branch.  The body is
host-scripting text whose exact wording is irrelevant here; the model
keeps its one interpolation point: the escaped audio path spliced between
single quotes into `new ImportOptions(new File('...'))`. -/
def importAudioJsxCode (path : String) : String :=
  "var io = new ImportOptions(new File(\x27" ++ escapeForJsx path ++ "\x27));"

/-- Abbreviated `JSON.stringify({...cmd, requestId, artifactPath})`: the
descriptor payload of the fallback branch.  (Field layout elided; the
claims only inspect which paths it is written to.) -/
def payloadJson (cmd : OnDemandCommand) (rid : String) : String :=
  let action := match cmd with
    | .importAudio p _ => "import_audio:" ++ p
    | .runJsxText c => "run_jsx_text:" ++ c
    | .runJsxFile p => "run_jsx_file:" ++ p
  "\x7b" ++ action ++ ";requestId:" ++ rid ++ ";artifactPath:" ++ artifactPathOf rid ++ "\x7d"

/-- The fast-path condition of `runOnDemand`:
`cmd.action === "run_jsx_text" || cmd.action === "run_jsx_file" || cmd.action === "import_audio"`. -/
def isDirectAction (cmd : OnDemandCommand) : Bool :=
  match cmd with
  | .runJsxText _ => true
  | .runJsxFile _ => true
  | .importAudio _ _ => true

/-- The poll-loop deadline of the result awaiter: `const deadlineMs = 5000`. -/
def awaitTimeoutMs : Nat := 5000

/-- The poll interval of the result awaiter: `await sleep(150)`. -/
def awaitPollIntervalMs : Nat := 150

/-- The result-awaiter loop of `runOnDemand`
(`while (Date.now() - start < deadlineMs) ...`), at poll-loop time `t` ms:
each iteration tries to read the artifact (then its `.tmp` variant); on
success it parses the text, deletes the descriptor, the artifact and the
temp variant, and returns the parsed result; on failure it sleeps 150 ms;
once the deadline has passed it deletes the descriptor and raises the
timeout error. -/
def awaitArtifact (env : RODEnv) (rid : String) (t : Nat) :
    Except RODError RODReturn × List FsOp :=
  if _h : t < awaitTimeoutMs then
    if env.artifactAppearAt ≤ t then
      (.ok (.parsedArtifact env.artifactContent),
       [.readFile (artifactPathOf rid),
        .unlink (cmdPathOf rid), .unlink (artifactPathOf rid),
        .unlink (artifactPathOf rid ++ ".tmp")])
    else
      let rest := awaitArtifact env rid (t + awaitPollIntervalMs)
      (rest.1,
       [.readFile (artifactPathOf rid), .readFile (artifactPathOf rid ++ ".tmp"),
        .sleep awaitPollIntervalMs] ++ rest.2)
  else
    (.error .timedOut, [.unlink (cmdPathOf rid)])
termination_by awaitTimeoutMs - t
decreasing_by simp [awaitTimeoutMs, awaitPollIntervalMs] at *; omega

/-- The write sequence of the fallback branch up to (and excluding) the
listener invocation: make the inbox directory, write the payload to
`cmd.json.tmp`, rename it onto `cmd.json`, then write the jobs descriptor
`rb_<id>.json` directly. -/
def fallbackDescriptorOps (cmd : OnDemandCommand) (rid : String) : List FsOp :=
  [.mkdirp inboxDirPath,
   .writeFile (inboxCmdPath ++ ".tmp") (payloadJson cmd rid),
   .rename (inboxCmdPath ++ ".tmp") inboxCmdPath,
   .writeFile (cmdPathOf rid) (payloadJson cmd rid)]

/-- `runOnDemand(cmd)`, for a call whose `Date.now()-random` request id is
`rid`.  Returns the call's result (or raised error) with the trace of
filesystem / automation operations it performed. -/
def runOnDemand (env : RODEnv) (cmd : OnDemandCommand) (rid : String) :
    Except RODError RODReturn × List FsOp :=
  if env.running = false then (.error .notRunning, [])
  else
    let pre : List FsOp := [.mkdirp bridgeDirPath, .mkdirp jobsDirPath]
    if isDirectAction cmd then
      let (jsxPath, writes) : String × List FsOp :=
        match cmd with
        | .runJsxText code =>
          (directJsxPathOf rid, [.writeFile (directJsxPathOf rid) code])
        | .runJsxFile p => (p, [])
        | .importAudio p _ =>
          (directJsxPathOf rid, [.writeFile (directJsxPathOf rid) (importAudioJsxCode p)])
      let ops := pre ++ writes ++ [.invoke "DoScriptFile direct"]
      if env.fastInvokeOk then
        let cleanup : List FsOp :=
          match cmd with
          | .runJsxFile _ => []
          | _ => [.unlink jsxPath]
        (.ok (.direct ⟨true, rid, "direct", 0⟩), ops ++ cleanup)
      else
        -- the rejected automation promise propagates to the outer catch,
        -- which attempts to unlink the (never written) descriptor
        (.error .appleScriptFailed, ops ++ [.unlink (cmdPathOf rid)])
    else
      let ops1 := pre ++ fallbackDescriptorOps cmd rid ++ [.invoke "DoScriptFile aelistener"]
      if env.listenerInvokeOk then
        let (r, ops2) := awaitArtifact env rid 0
        match r with
        | .ok v => (.ok v, ops1 ++ ops2)
        | .error e =>
          -- the raised timeout propagates to the outer catch, which
          -- unlinks the descriptor once more
          (.error e, ops1 ++ ops2 ++ [.unlink (cmdPathOf rid)])
      else
        (.error .appleScriptFailed, ops1 ++ [.unlink (cmdPathOf rid)])

/-! ## The installer (`discoverAETargets` / `installUnifiedBridge`)

The installer's behaviour depends on the state of the filesystem (which
version directories `readdirSync` reports), so here the filesystem is a
real state: a set of directories and a map of files, with paths as lists
of segments.  Failure of `mkdirSync` / `writeFileSync` (permissions, disk
full) is modelled by a fixed set of blocked path prefixes — an operation
on a path fails iff some blocked prefix covers it.  Each `try {...} catch {}`
of the source swallows such a failure. -/

namespace Install

/-- A filesystem: the directories that exist and the files with their
contents.  Both lists are in creation order (the order a directory listing
reports). -/
structure FS where
  dirs : List (List String)
  files : List (List String × String)
deriving DecidableEq, Repr

/-- An operation on path `p` fails iff some blocked prefix covers `p`. -/
def isBlocked (blocked : List (List String)) (p : List String) : Bool :=
  blocked.any (fun b => b.isPrefixOf p)

/-- All non-empty prefixes of a path, shortest first: the directories
`mkdirSync(p, {recursive: true})` ensures exist. -/
def ancestors (p : List String) : List (List String) :=
  (List.range p.length).map (fun i => p.take (i + 1))

/-- The directories of `ps` (in order) that are missing from `ds`. -/
def newDirs (ds : List (List String)) : List (List String) → List (List String)
  | [] => []
  | p :: ps => if p ∈ ds then newDirs ds ps else p :: newDirs (ds ++ [p]) ps

/-- Append the missing directories of `ps` to `ds`. -/
def addDirs (ds : List (List String)) (ps : List (List String)) : List (List String) :=
  ds ++ newDirs ds ps

/-- `fs.mkdirSync(p, {recursive: true})`: fails on a blocked path,
otherwise creates every missing ancestor of `p` (including `p`). -/
def mkdirRec (blocked : List (List String)) (fs : FS) (p : List String) : Option FS :=
  if isBlocked blocked p then none
  else some { fs with dirs := addDirs fs.dirs (ancestors p) }

/-- `mkdirSync` wrapped in the source's `try {...} catch {}`. -/
def tryMkdir (blocked : List (List String)) (fs : FS) (p : List String) : FS :=
  (mkdirRec blocked fs p).getD fs

/-- Update-or-append write of a file map entry. -/
def upsert (files : List (List String × String)) (p : List String) (c : String) :
    List (List String × String) :=
  if files.any (fun e => e.1 == p) then
    files.map (fun e => if e.1 == p then (p, c) else e)
  else files ++ [(p, c)]

/-- `fs.writeFileSync(p, c)`: fails on a blocked path or a missing parent
directory, otherwise overwrites in place or creates the file. -/
def writeFile (blocked : List (List String)) (fs : FS) (p : List String) (c : String) :
    Option FS :=
  if isBlocked blocked p || !(fs.dirs.contains p.dropLast) then none
  else some { fs with files := upsert fs.files p c }

/-- The immediate child directories of `base`, in listing order:
`readdirSync(base).filter(d => statSync(join(base, d)).isDirectory())`. -/
def childDirs (ds : List (List String)) (base : List String) : List String :=
  ds.filterMap (fun d => if d.dropLast = base then d.getLast? else none)

/-- The version subdirectories the source observes under `base`
(`readdirSync` throws on a missing directory; the `catch` leaves the list
empty). -/
def versionsOf (fs : FS) (base : List String) : List String :=
  if base ∈ fs.dirs then childDirs fs.dirs base else []

/-- The two candidate installation roots of `discoverAETargets`. -/
def base1 : List String :=
  ["HOME", "Library", "Preferences", "Adobe", "After Effects"]

/-- The second candidate installation root. -/
def base2 : List String :=
  ["HOME", "Library", "Application Support", "Adobe", "After Effects"]

/-- The conventional version folders seeded when none exist. -/
def seedVersions : List String := ["25.0", "24.0", "23.0"]

/-- A discovered installation root with its version folders
(`BridgeTarget`). -/
structure BridgeTarget where
  base : List String
  versions : List String
deriving DecidableEq, Repr

/-- The result record of `installUnifiedBridge` (`BridgeInstallResult`). -/
structure BridgeInstallResult where
  success : Bool
  installCount : Nat
  message : String
deriving DecidableEq, Repr

/-- The text of the unified bridge script written into each startup
folder.  (The script's behaviour is modelled by `Bridge.rbProcess` /
`Bridge.rbCleanupOldFiles`; for the installer only the fact that every
write stores this same constant matters, so the literal JSX text is
abbreviated.) -/
def unifiedBridgeCode : String := "RaycastBridge unified consumer loop script"

/-- Create the given version folders under `base`, each write failure
swallowed. -/
def seedFold (blocked : List (List String)) (base : List String) (fs : FS)
    (vs : List String) : FS :=
  vs.foldl (fun acc v => tryMkdir blocked acc (base ++ [v])) fs

/-- Discovery at one candidate root: ensure the root exists, list its
version subdirectories, and seed the conventional versions if none are
found. -/
def discoverOne (blocked : List (List String)) (fs : FS) (base : List String) :
    BridgeTarget × FS :=
  let fs1 := tryMkdir blocked fs base
  let vs := versionsOf fs1 base
  if vs = [] then
    (⟨base, seedVersions⟩, seedFold blocked base fs1 seedVersions)
  else (⟨base, vs⟩, fs1)

/-- `discoverAETargets()`: both candidate roots, in order. -/
def discoverAETargets (blocked : List (List String)) (fs : FS) :
    List BridgeTarget × FS :=
  let (t1, fs1) := discoverOne blocked fs base1
  let (t2, fs2) := discoverOne blocked fs1 base2
  ([t1, t2], fs2)

/-- `<base>/<version>/Scripts/Startup`. -/
def startupDirOf (base : List String) (v : String) : List String :=
  base ++ [v, "Scripts", "Startup"]

/-- `<base>/<version>/Scripts/Startup/RaycastBridge.jsx`. -/
def scriptPathOf (base : List String) (v : String) : List String :=
  startupDirOf base v ++ ["RaycastBridge.jsx"]

/-- One iteration of the install loop: make the startup folder and write
the bridge script, counting one install on success; the enclosing
`try {...} catch {}` keeps whatever the iteration managed to do. -/
def installVersion (blocked : List (List String)) (fs : FS) (base : List String)
    (v : String) : Nat × FS :=
  match mkdirRec blocked fs (startupDirOf base v) with
  | none => (0, fs)
  | some fs1 =>
    match writeFile blocked fs1 (scriptPathOf base v) unifiedBridgeCode with
    | none => (0, fs1)
    | some fs2 => (1, fs2)

/-- The inner install loop over one target's versions, threading the
running install count and filesystem. -/
def installVersions (blocked : List (List String)) (base : List String)
    (acc : Nat × FS) (vs : List String) : Nat × FS :=
  vs.foldl
    (fun acc2 v =>
      let r := installVersion blocked acc2.2 base v
      (acc2.1 + r.1, r.2))
    acc

/-- The nested install loop over all targets and versions. -/
def installAll (blocked : List (List String)) (fs : FS) (ts : List BridgeTarget) :
    Nat × FS :=
  ts.foldl (fun acc t => installVersions blocked t.base acc t.versions) (0, fs)

/-- `installUnifiedBridge()`. -/
def installUnifiedBridge (blocked : List (List String)) (fs : FS) :
    BridgeInstallResult × FS :=
  let (ts, fs1) := discoverAETargets blocked fs
  let (n, fs2) := installAll blocked fs1 ts
  if n = 0 then (⟨false, 0, "Could not create any Startup folder"⟩, fs2)
  else (⟨true, n, "Installed Bridge in " ++ toString n ++ " version(s)"⟩, fs2)

/-- Whether the install-loop iteration for `(base, v)` succeeds.  Both the
`mkdirSync` of the startup folder and the `writeFileSync` of the script
depend only on the blocked prefixes, so success is state-independent. -/
def versionInstallOk (blocked : List (List String)) (base : List String)
    (v : String) : Bool :=
  !isBlocked blocked (startupDirOf base v) && !isBlocked blocked (scriptPathOf base v)

/-- How many versions of one target install successfully. -/
def countVersions (blocked : List (List String)) (base : List String)
    (vs : List String) : Nat :=
  (vs.filter (fun v => versionInstallOk blocked base v)).length

/-- How many installs `installAll` performs over the given targets. -/
def countTargets (blocked : List (List String)) (ts : List BridgeTarget) : Nat :=
  (ts.map (fun t => countVersions blocked t.base t.versions)).sum

/-- `p` is present as a file key, and every entry at `p` holds `c`. -/
def HasEntry (files : List (List String × String)) (p : List String) (c : String) : Prop :=
  (∃ e ∈ files, e.1 = p) ∧ ∀ e ∈ files, e.1 = p → e.2 = c

/-- `fs'` extends `fs` by appending only new directories satisfying `P`. -/
def DirsExtend (fs fs' : FS) (P : List String → Prop) : Prop :=
  ∃ es, fs'.dirs = fs.dirs ++ es ∧ ∀ q ∈ es, P q ∧ q ∉ fs.dirs

/-- The directories `discoverOne` at root `b` may create: ancestors of `b`
and of its (unblocked) seeded version folders. -/
def PdiscOf (blocked : List (List String)) (b : List String) :
    List String → Prop := fun q =>
  (isBlocked blocked b = false ∧ q ∈ ancestors b) ∨
  ∃ v ∈ seedVersions, isBlocked blocked (b ++ [v]) = false ∧ q ∈ ancestors (b ++ [v])

/-- The directories installing target `t` may create: ancestors of its
(unblocked) startup folders. -/
def PinstOf (blocked : List (List String)) (t : BridgeTarget) :
    List String → Prop := fun q =>
  ∃ v ∈ t.versions, isBlocked blocked (startupDirOf t.base v) = false ∧
    q ∈ ancestors (startupDirOf t.base v)

end Install

/-! ## Lemmas and theorems -/

@[simp]
theorem ensuredState_files (s : QueueState) : (ensuredState s).files = s.files := by
  unfold ensuredState; split <;> rfl

@[simp]
theorem ensuredState_of_exists (s : QueueState) (h : s.queueDirExists = true) :
    ensuredState s = s := by
  unfold ensuredState; simp [h]

@[simp]
theorem ensureEffects_of_exists (s : QueueState) (h : s.queueDirExists = true) :
    ensureEffects s = [] := by
  unfold ensureEffects; simp [h]

theorem hasStopFlag_ensured (s : QueueState) :
    hasStopFlag (ensuredState s) = hasStopFlag s := by
  unfold hasStopFlag; rw [ensuredState_files]

theorem selectedFile_ensured (s : QueueState) :
    selectedFile (ensuredState s) = selectedFile s := by
  unfold selectedFile tickWorkList; rw [ensuredState_files]

/-! ### C1: payload round-trip -/

theorem stripTrailing_append_newline (l : List Char)
    (h : (l.getLast?.all fun c => !isJsWhitespace c) = true) :
    (((l ++ ['\n']).reverse.dropWhile isJsWhitespace).reverse) = l := by
  rw [List.reverse_append]
  simp only [List.reverse_cons, List.reverse_nil, List.nil_append,
    List.cons_append, List.dropWhile]
  norm_num [isJsWhitespace]
  cases hrev : l.reverse with
  | nil =>
    have : l = [] := by simpa using congrArg List.reverse hrev
    simp [this]
  | cons c r =>
    have hlast : l.getLast? = some c := by
      rw [← List.head?_reverse, hrev]; rfl
    rw [hlast] at h
    simp only [Option.all_some] at h
    rw [List.dropWhile_cons_of_neg (by simp only [Bool.not_eq_true'] at h; simp [h])]
    calc (c :: r).reverse = l.reverse.reverse := by rw [hrev]
    _ = l := l.reverse_reverse

/-- **C1** (counterexample).  The claim "decoding the encoded payload
yields the original command exactly ... for every command content string,
including contents ending in whitespace" is false: the consumer's read
step strips all trailing whitespace, so a content ending in a space is
not recovered unchanged. -/
theorem readBack_queued_payload_not_exact :
    bridgeReadContent (queueCommandPayload "a ") ≠ "a " := by decide

/-- **C1** (amended).  Round-trip exactness holds exactly when the content
does not end in a JS-whitespace character: for every such content string
(control characters elsewhere included), the consumer's read step recovers
from the submitter's payload (content plus trailing newline) the original
content unchanged. -/
theorem readBack_queued_payload (s : String)
    (h : (s.data.getLast?.all fun c => !isJsWhitespace c) = true) :
    bridgeReadContent (queueCommandPayload s) = s := by
  unfold bridgeReadContent queueCommandPayload stripTrailingWhitespace
  have hdata : (s ++ "\n").data = s.data ++ ['\n'] := by
    rw [String.data_append]
  rw [hdata, stripTrailing_append_newline s.data h]

/-- **C1** (witness for the amended theorem). -/
theorem readBack_queued_payload_witness :
    bridgeReadContent (queueCommandPayload "dir/take_01.wav") = "dir/take_01.wav" :=
  readBack_queued_payload "dir/take_01.wav" (by decide)

/-! ### C2: the Stop Flag freezes a tick completely -/

/-- **C2**.  In every consumer-loop tick that observes the Stop Flag in
the (existing) queue directory, `rbProcess` performs no filesystem action
at all — its effect trace is empty, so no file is read, deleted or swept
and no directory is created — and the queue state after the tick equals
the state before it. -/
theorem stop_flag_freezes_tick (env : HostEnv) (s : QueueState)
    (hdir : s.queueDirExists = true) (hstop : hasStopFlag s = true) :
    rbProcess env s = (s, []) := by
  unfold rbProcess
  simp [hdir, hstop]

/-- **C2** (witness). -/
theorem stop_flag_freezes_tick_witness :
    rbProcess ⟨false, true, fun _ _ => .ok⟩
      ⟨true, [⟨"STOP_BRIDGE.txt", .other, 0, "", true, false⟩]⟩ =
      (⟨true, [⟨"STOP_BRIDGE.txt", .other, 0, "", true, false⟩]⟩, []) :=
  stop_flag_freezes_tick _ _ rfl (by decide)

/-! ### C3: when the TTL sweep actually runs -/

/-- **C3** (counterexample).  The claim "every queue file older than 5
minutes at the start of a tick (Stop Flag absent) is removed during that
tick" is false: `rbProcess` contains no TTL sweep.  Here a 400000 ms old
`.jsx` file survives a tick (with the Stop Flag absent) because the tick
selects and processes the fresher `.cmd` file. -/
theorem tick_does_not_sweep_counterexample :
    hasStopFlag ⟨true, [⟨"old.jsx", .jsx, 0, "code", true, false⟩,
                        ⟨"new.cmd", .cmd, 350000, "/a.wav", true, false⟩]⟩ = false ∧
    maxAgeMs < 400000 - 0 ∧
    (⟨"old.jsx", .jsx, 0, "code", true, false⟩ : QFile) ∈
      (rbProcess ⟨false, true, fun _ _ => .ok⟩
        ⟨true, [⟨"old.jsx", .jsx, 0, "code", true, false⟩,
                ⟨"new.cmd", .cmd, 350000, "/a.wav", true, false⟩]⟩).1.files := by
  decide

/-- **C3** (amended).  The TTL sweep is the startup step
`rbCleanupOldFiles`, not part of the tick: when the bridge script starts,
every queue file older than 5 minutes is removed by the sweep, whatever
its validity or kind; a tick (`rbProcess`) never removes a file because of
its age — the only file a tick can delete is the one it selected for
processing. -/
theorem ttl_sweep_runs_at_startup (s : QueueState) (now : Nat) (env : HostEnv) :
    (∀ f ∈ s.files, maxAgeMs < now - f.mtime → f ∉ (rbCleanupOldFiles s now).1.files) ∧
    (∀ f ∈ s.files, f ∉ (rbProcess env s).1.files → selectedFile s = some f) := by
  constructor
  · intro f _hf hold
    unfold rbCleanupOldFiles
    simp only [ensuredState_files, List.mem_filter]
    intro ⟨_, hkeep⟩
    simp [hold] at hkeep
  · intro f hf hnot
    unfold rbProcess at hnot
    simp only [ensuredState_files, hasStopFlag_ensured, selectedFile_ensured] at hnot
    by_cases h1 : hasStopFlag s
    · simp [h1, ensuredState_files] at hnot; exact absurd hf hnot
    · simp only [h1, if_false] at hnot
      by_cases h2 : env.hasSelection
      · simp [h2, ensuredState_files] at hnot; exact absurd hf hnot
      · simp only [h2, if_false] at hnot
        cases hsel : selectedFile s with
        | none => simp [hsel, ensuredState_files] at hnot; exact absurd hf hnot
        | some g =>
          simp only [hsel] at hnot
          by_cases h3 : g.isFile = false
          · simp [h3, ensuredState_files] at hnot; exact absurd hf hnot
          · simp only [h3, if_false] at hnot
            by_cases h4 : g.readFails
            · simp [h4, ensuredState_files] at hnot; exact absurd hf hnot
            · simp only [h4, if_false] at hnot
              by_cases h5 : bridgeReadContent g.content = ""
              · simp [h5, ensuredState_files] at hnot; exact absurd hf hnot
              · simp only [h5, if_false] at hnot
                by_cases h6 : env.hasProject = false
                · simp [h6, ensuredState_files] at hnot; exact absurd hf hnot
                · simp only [h6, if_false] at hnot
                  cases h7 : env.dispatch g.ftype (bridgeReadContent g.content) with
                  | ok =>
                    simp only [h7, ensuredState_files] at hnot
                    have : f = g := by
                      by_contra hne
                      exact hnot ((List.mem_erase_of_ne hne).2 hf)
                    exact congrArg some this.symm
                  | notOk => simp [h7, ensuredState_files] at hnot; exact absurd hf hnot
                  | raise => simp [h7, ensuredState_files] at hnot; exact absurd hf hnot

/-- **C3** (witness for the amended theorem). -/
theorem ttl_sweep_runs_at_startup_witness :
    ((⟨"stale.cmd", .cmd, 0, "/x.wav", true, false⟩ : QFile) ∈
        (⟨true, [⟨"stale.cmd", .cmd, 0, "/x.wav", true, false⟩]⟩ : QueueState).files ∧
      maxAgeMs < 600000 - 0 ∧
      (⟨"stale.cmd", .cmd, 0, "/x.wav", true, false⟩ : QFile) ∉
        (rbCleanupOldFiles ⟨true, [⟨"stale.cmd", .cmd, 0, "/x.wav", true, false⟩]⟩
          600000).1.files) :=
  ⟨by decide, by decide,
    (ttl_sweep_runs_at_startup ⟨true, [⟨"stale.cmd", .cmd, 0, "/x.wav", true, false⟩]⟩
        600000 ⟨false, true, fun _ _ => .ok⟩).1
      ⟨"stale.cmd", .cmd, 0, "/x.wav", true, false⟩ (by decide) (by decide)⟩

/-! ### C7: success deletes, exceptions leave for retry -/

/-- **C7**.  For a tick that dispatches the selected job file: if the
dispatch runs to success the file is deleted at the end of the tick; if
the dispatch throws, the tick leaves the queue untouched (the file
included), and the next tick's selection over the resulting state picks
the same file again — at-least-once retry. -/
theorem tick_dispatch_retry (env : HostEnv) (s : QueueState) (f : QFile)
    (hdir : s.queueDirExists = true) (hstop : hasStopFlag s = false)
    (hsel : env.hasSelection = false) (hf : selectedFile s = some f)
    (hfile : f.isFile = true) (hread : f.readFails = false)
    (hcontent : bridgeReadContent f.content ≠ "") (hproj : env.hasProject = true) :
    (env.dispatch f.ftype (bridgeReadContent f.content) = .ok →
      (rbProcess env s).1.files = s.files.erase f) ∧
    (env.dispatch f.ftype (bridgeReadContent f.content) = .raise →
      rbProcess env s = (s, [.readFile f.name, .dispatched f.name]) ∧
      selectedFile (rbProcess env s).1 = some f) := by
  unfold rbProcess
  simp only [ensuredState_of_exists s hdir, ensureEffects_of_exists s hdir,
    hstop, hsel, hf, hfile, hread, hproj]
  constructor
  · intro hd
    simp [hd, hcontent]
  · intro hd
    simp [hd, hcontent, hf]

/-- **C7** (witness). -/
theorem tick_dispatch_retry_witness :
    ((rbProcess ⟨false, true, fun _ _ => .ok⟩
        ⟨true, [⟨"j.cmd", .cmd, 0, "/a.wav", true, false⟩]⟩).1.files
      = (⟨true, [⟨"j.cmd", .cmd, 0, "/a.wav", true, false⟩]⟩ : QueueState).files.erase
          ⟨"j.cmd", .cmd, 0, "/a.wav", true, false⟩) ∧
    (rbProcess ⟨false, true, fun _ _ => .raise⟩
        ⟨true, [⟨"j.cmd", .cmd, 0, "/a.wav", true, false⟩]⟩
      = (⟨true, [⟨"j.cmd", .cmd, 0, "/a.wav", true, false⟩]⟩,
         [.readFile "j.cmd", .dispatched "j.cmd"])) :=
  ⟨(tick_dispatch_retry ⟨false, true, fun _ _ => .ok⟩
      ⟨true, [⟨"j.cmd", .cmd, 0, "/a.wav", true, false⟩]⟩
      ⟨"j.cmd", .cmd, 0, "/a.wav", true, false⟩
      rfl (by decide) rfl (by decide) rfl rfl (by decide) rfl).1 rfl,
   ((tick_dispatch_retry ⟨false, true, fun _ _ => .raise⟩
      ⟨true, [⟨"j.cmd", .cmd, 0, "/a.wav", true, false⟩]⟩
      ⟨"j.cmd", .cmd, 0, "/a.wav", true, false⟩
      rfl (by decide) rfl (by decide) rfl rfl (by decide) rfl).2 rfl).1⟩

/-! ### C8: single-flight selection, but not oldest-first -/

/-- **C8** (counterexample).  The claim "the selected file is the oldest
observed file in the queue directory" is false: `.cmd` entries are
considered before every `.jsx` entry regardless of age, so with an old
`.jsx` file and a fresher `.cmd` file in the queue the fresher `.cmd`
file is selected. -/
theorem tick_selection_not_oldest :
    selectedFile ⟨true, [⟨"a.jsx", .jsx, 0, "code", true, false⟩,
                         ⟨"b.cmd", .cmd, 100, "/a.wav", true, false⟩]⟩ =
      some ⟨"b.cmd", .cmd, 100, "/a.wav", true, false⟩ ∧
    (⟨"a.jsx", .jsx, 0, "code", true, false⟩ : QFile) ∈
      tickWorkList ⟨true, [⟨"a.jsx", .jsx, 0, "code", true, false⟩,
                           ⟨"b.cmd", .cmd, 100, "/a.wav", true, false⟩]⟩ ∧
    (0 : Nat) < 100 := by decide

/-- **C8** (amended).  Every tick with a non-empty work list (Stop Flag
absent, no active selection) is single-flight: the tick selects exactly
one file — the first `.cmd` file in directory-listing order, or the first
`.jsx` file if no `.cmd` file exists, not necessarily the oldest — and
every read, dispatch and removal the tick performs names only that file,
with exactly one read. -/
theorem tick_single_flight (env : HostEnv) (s : QueueState) (f : QFile)
    (hdir : s.queueDirExists = true) (hstop : hasStopFlag s = false)
    (hsel : env.hasSelection = false) (hf : selectedFile s = some f)
    (hfile : f.isFile = true) :
    ((rbProcess env s).2.filter
        (fun e => match e with | .readFile _ => true | _ => false)
      = [.readFile f.name]) ∧
    (∀ n, QEffect.dispatched n ∈ (rbProcess env s).2 → n = f.name) ∧
    (∀ n, QEffect.removeFile n ∈ (rbProcess env s).2 → n = f.name) := by
  unfold rbProcess
  simp only [ensuredState_of_exists s hdir, ensureEffects_of_exists s hdir,
    hstop, hsel, hf, hfile]
  by_cases h4 : f.readFails <;>
    by_cases h5 : bridgeReadContent f.content = "" <;>
      by_cases h6 : env.hasProject = false <;>
        cases h7 : env.dispatch f.ftype (bridgeReadContent f.content) <;>
          simp [h4, h5, h6, h7, List.filter]

/-- **C8** (witness for the amended theorem). -/
theorem tick_single_flight_witness :
    ((rbProcess ⟨false, true, fun _ _ => .ok⟩
        ⟨true, [⟨"a.jsx", .jsx, 0, "code", true, false⟩,
                ⟨"b.cmd", .cmd, 100, "/a.wav", true, false⟩]⟩).2.filter
        (fun e => match e with | .readFile _ => true | _ => false)
      = [.readFile "b.cmd"]) ∧
    (∀ n, QEffect.removeFile n ∈
        (rbProcess ⟨false, true, fun _ _ => .ok⟩
          ⟨true, [⟨"a.jsx", .jsx, 0, "code", true, false⟩,
                  ⟨"b.cmd", .cmd, 100, "/a.wav", true, false⟩]⟩).2 → n = "b.cmd") :=
  ⟨(tick_single_flight ⟨false, true, fun _ _ => .ok⟩
      ⟨true, [⟨"a.jsx", .jsx, 0, "code", true, false⟩,
              ⟨"b.cmd", .cmd, 100, "/a.wav", true, false⟩]⟩
      ⟨"b.cmd", .cmd, 100, "/a.wav", true, false⟩
      rfl (by decide) rfl (by decide) rfl).1,
   (tick_single_flight ⟨false, true, fun _ _ => .ok⟩
      ⟨true, [⟨"a.jsx", .jsx, 0, "code", true, false⟩,
              ⟨"b.cmd", .cmd, 100, "/a.wav", true, false⟩]⟩
      ⟨"b.cmd", .cmd, 100, "/a.wav", true, false⟩
      rfl (by decide) rfl (by decide) rfl).2.2⟩

/-! ### Path disjointness facts -/

theorem cmdPath_ne_directJsxPath (rid : String) : cmdPathOf rid ≠ directJsxPathOf rid := by
  unfold cmdPathOf directJsxPathOf
  intro h
  have h2 := congrArg String.data h
  simp only [String.data_append, List.append_assoc] at h2
  have h3 := List.append_cancel_left (List.append_cancel_left (List.append_cancel_left h2))
  exact absurd h3 (by decide)

theorem inboxCmdPath_ne_cmdPath (rid : String) : inboxCmdPath ≠ cmdPathOf rid := by
  unfold inboxCmdPath inboxDirPath cmdPathOf jobsDirPath
  intro h
  have h2 := congrArg String.data h
  simp only [String.data_append, List.append_assoc] at h2
  have h3 := List.append_cancel_left h2
  simp at h3

theorem artifactPath_ne_cmdPath (rid : String) : artifactPathOf rid ≠ cmdPathOf rid := by
  unfold artifactPathOf cmdPathOf
  intro h
  have h2 := congrArg String.data h
  simp only [String.data_append, List.append_assoc] at h2
  have h3 := List.append_cancel_left (List.append_cancel_left (List.append_cancel_left h2))
  exact absurd h3 (by decide)

/-! ### C4: direct invocation fails fast when the host is not running -/

/-- **C4**.  Every `runOnDemand` call made while the host is not running
fails with the distinct not-running error before performing any side
effect: the operation trace is empty, so nothing is launched and no temp
script file, descriptor or any other file is written (hence none is left
on disk). -/
theorem runOnDemand_not_running_fails_fast (env : RODEnv) (cmd : OnDemandCommand)
    (rid : String) (h : env.running = false) :
    runOnDemand env cmd rid = (.error .notRunning, []) := by
  unfold runOnDemand
  simp [h]

/-- **C4** (witness). -/
theorem runOnDemand_not_running_fails_fast_witness :
    runOnDemand ⟨false, true, true, 0, ""⟩ (.runJsxText "alert(1)") "173-ab" =
      (.error .notRunning, []) :=
  runOnDemand_not_running_fails_fast ⟨false, true, true, 0, ""⟩ (.runJsxText "alert(1)")
    "173-ab" rfl

/-! ### C5: the result awaiter -/

theorem awaitArtifact_timeout_aux (env : RODEnv) (rid : String)
    (h : awaitTimeoutMs ≤ env.artifactAppearAt) :
    ∀ k t, awaitTimeoutMs - t ≤ k →
      (awaitArtifact env rid t).1 = .error .timedOut ∧
      FsOp.unlink (cmdPathOf rid) ∈ (awaitArtifact env rid t).2 ∧
      FsOp.unlink (artifactPathOf rid) ∉ (awaitArtifact env rid t).2 := by
  intro k
  induction k with
  | zero =>
    intro t ht
    have h1 : ¬ t < awaitTimeoutMs := by omega
    rw [awaitArtifact, dif_neg h1]
    simp [artifactPath_ne_cmdPath rid]
  | succ k ih =>
    intro t ht
    rw [awaitArtifact]
    by_cases h1 : t < awaitTimeoutMs
    · have h2 : ¬ env.artifactAppearAt ≤ t := by omega
      rw [dif_pos h1, if_neg h2]
      have ihs := ih (t + awaitPollIntervalMs)
        (by
          have e1 : awaitTimeoutMs = 5000 := rfl
          have e2 : awaitPollIntervalMs = 150 := rfl
          omega)
      refine ⟨ihs.1, ?_, ?_⟩
      · simp only [List.cons_append, List.nil_append, List.mem_cons]
        exact .inr (.inr (.inr ihs.2.1))
      · simp only [List.cons_append, List.nil_append, List.mem_cons]
        rintro (hc | hc | hc | hc) <;> first
          | exact FsOp.noConfusion hc
          | exact ihs.2.2 hc
    · rw [dif_neg h1]
      simp [artifactPath_ne_cmdPath rid]

theorem awaitArtifact_success_aux (env : RODEnv) (rid : String)
    (h : env.artifactAppearAt ≤ awaitTimeoutMs - awaitPollIntervalMs) :
    ∀ k t, awaitTimeoutMs - t ≤ k → t % awaitPollIntervalMs = 0 →
      t < awaitTimeoutMs →
      (awaitArtifact env rid t).1 = .ok (.parsedArtifact env.artifactContent) ∧
      FsOp.unlink (cmdPathOf rid) ∈ (awaitArtifact env rid t).2 ∧
      FsOp.unlink (artifactPathOf rid) ∈ (awaitArtifact env rid t).2 := by
  have e1 : awaitTimeoutMs = 5000 := rfl
  have e2 : awaitPollIntervalMs = 150 := rfl
  rw [e1, e2] at h
  intro k
  induction k with
  | zero =>
    intro t ht _ hlt
    omega
  | succ k ih =>
    intro t ht hmod hlt
    rw [e1] at ht hlt
    rw [e2] at hmod
    rw [awaitArtifact]
    have h1 : t < awaitTimeoutMs := by rw [e1]; omega
    rw [dif_pos h1]
    by_cases h2 : env.artifactAppearAt ≤ t
    · rw [if_pos h2]
      simp
    · rw [if_neg h2]
      have ihs := ih (t + awaitPollIntervalMs)
        (by rw [e1, e2]; omega) (by rw [e2]; omega) (by rw [e1, e2]; omega)
      refine ⟨ihs.1, ?_, ?_⟩
      · simp only [List.cons_append, List.nil_append, List.mem_cons]
        exact .inr (.inr (.inr ihs.2.1))
      · simp only [List.cons_append, List.nil_append, List.mem_cons]
        exact .inr (.inr (.inr ihs.2.2))

theorem awaitArtifact_sleep_aux (env : RODEnv) (rid : String) :
    ∀ k t, awaitTimeoutMs - t ≤ k →
      ∀ n, FsOp.sleep n ∈ (awaitArtifact env rid t).2 → n = awaitPollIntervalMs := by
  intro k
  induction k with
  | zero =>
    intro t ht n hn
    have h1 : ¬ t < awaitTimeoutMs := by omega
    rw [awaitArtifact] at hn
    rw [dif_neg h1] at hn
    simp at hn
  | succ k ih =>
    intro t ht n hn
    rw [awaitArtifact] at hn
    by_cases h1 : t < awaitTimeoutMs
    · rw [dif_pos h1] at hn
      by_cases h2 : env.artifactAppearAt ≤ t
      · rw [if_pos h2] at hn
        simp at hn
      · rw [if_neg h2] at hn
        simp only [List.cons_append, List.nil_append, List.mem_cons] at hn
        rcases hn with hc | hc | hc | hc
        · exact FsOp.noConfusion hc
        · exact FsOp.noConfusion hc
        · exact FsOp.sleep.inj hc
        · exact ih (t + awaitPollIntervalMs)
            (by
              have e1 : awaitTimeoutMs = 5000 := rfl
              have e2 : awaitPollIntervalMs = 150 := rfl
              omega) n hc
    · rw [dif_neg h1] at hn
      simp at hn

/-- **C5**.  The result awaiter polls the artifact path and its `.tmp`
variant, sleeping exactly 150 ms between polls, against the 5000 ms
deadline.  If the artifact appears only at or after the deadline (e.g. at
6200 ms) the awaiter raises the timeout error, deletes the job descriptor,
and never deletes the artifact (a late artifact is not cleaned up).  If
the artifact appears in time for a poll (by deadline − interval), the
awaiter returns the parsed artifact text and deletes both the descriptor
and the artifact. -/
theorem awaiter_timeout_and_success (env : RODEnv) (rid : String) :
    (∀ n, FsOp.sleep n ∈ (awaitArtifact env rid 0).2 → n = awaitPollIntervalMs) ∧
    (awaitTimeoutMs ≤ env.artifactAppearAt →
      (awaitArtifact env rid 0).1 = .error .timedOut ∧
      FsOp.unlink (cmdPathOf rid) ∈ (awaitArtifact env rid 0).2 ∧
      FsOp.unlink (artifactPathOf rid) ∉ (awaitArtifact env rid 0).2) ∧
    (env.artifactAppearAt ≤ awaitTimeoutMs - awaitPollIntervalMs →
      (awaitArtifact env rid 0).1 = .ok (.parsedArtifact env.artifactContent) ∧
      FsOp.unlink (cmdPathOf rid) ∈ (awaitArtifact env rid 0).2 ∧
      FsOp.unlink (artifactPathOf rid) ∈ (awaitArtifact env rid 0).2) :=
  ⟨fun n hn => awaitArtifact_sleep_aux env rid awaitTimeoutMs 0 (by omega) n hn,
   fun h => awaitArtifact_timeout_aux env rid h awaitTimeoutMs 0 (by omega),
   fun h => awaitArtifact_success_aux env rid h awaitTimeoutMs 0 (by omega)
     (by simp) (by decide)⟩

/-- **C5** (witness): an artifact appearing only at 6200 ms times out with
the descriptor deleted and the artifact retained; one appearing
immediately is returned with both files deleted. -/
theorem awaiter_timeout_and_success_witness :
    ((awaitArtifact ⟨true, true, true, 6200, "late"⟩ "w1" 0).1 = .error .timedOut ∧
      FsOp.unlink (cmdPathOf "w1") ∈ (awaitArtifact ⟨true, true, true, 6200, "late"⟩ "w1" 0).2 ∧
      FsOp.unlink (artifactPathOf "w1") ∉
        (awaitArtifact ⟨true, true, true, 6200, "late"⟩ "w1" 0).2) ∧
    ((awaitArtifact ⟨true, true, true, 0, "ok"⟩ "w2" 0).1 = .ok (.parsedArtifact "ok") ∧
      FsOp.unlink (cmdPathOf "w2") ∈ (awaitArtifact ⟨true, true, true, 0, "ok"⟩ "w2" 0).2 ∧
      FsOp.unlink (artifactPathOf "w2") ∈ (awaitArtifact ⟨true, true, true, 0, "ok"⟩ "w2" 0).2) :=
  ⟨(awaiter_timeout_and_success ⟨true, true, true, 6200, "late"⟩ "w1").2.1 (by decide),
   (awaiter_timeout_and_success ⟨true, true, true, 0, "ok"⟩ "w2").2.2 (by decide)⟩

/-! ### C6: which writes use temp-then-rename -/

/-- **C6** (counterexample).  The claim "the Job Submitter (queueCommand)
first writes a temporary file and then atomically renames it to the final
descriptor path" is false: `queueCommand` performs a single direct write
of the descriptor and no rename at all. -/
theorem queueCommand_write_not_temp_rename :
    writesViaTempThenRename (queueCommandOps "/tmp/a.wav" "173-x1" "cmd")
        (queueDescriptorPath "173-x1" "cmd") = false ∧
    FsOp.writeFile (queueDescriptorPath "173-x1" "cmd") (queueCommandPayload "/tmp/a.wav")
      ∈ queueCommandOps "/tmp/a.wav" "173-x1" "cmd" := by
  constructor
  · rfl
  · simp [queueCommandOps]

/-- **C6** (amended).  Only the fallback branch's inbox command file
(`inbox/cmd.json`) is written via write-to-temp-then-rename.  The queue
descriptor written by `queueCommand` and the jobs descriptor
`rb_<id>.json` written by `runOnDemand`'s fallback are both single direct
writes: `queueCommand`'s trace contains no rename, and the only rename in
the fallback's write sequence targets the inbox path, not the jobs
descriptor. -/
theorem descriptor_writes_direct_inbox_via_temp (content stem ext : String)
    (cmd : OnDemandCommand) (rid : String) :
    (∀ src dst, FsOp.rename src dst ∉ queueCommandOps content stem ext) ∧
    FsOp.writeFile (queueDescriptorPath stem ext) (queueCommandPayload content)
      ∈ queueCommandOps content stem ext ∧
    FsOp.rename (inboxCmdPath ++ ".tmp") inboxCmdPath ∈ fallbackDescriptorOps cmd rid ∧
    FsOp.writeFile (inboxCmdPath ++ ".tmp") (payloadJson cmd rid)
      ∈ fallbackDescriptorOps cmd rid ∧
    FsOp.writeFile (cmdPathOf rid) (payloadJson cmd rid) ∈ fallbackDescriptorOps cmd rid ∧
    hasRenameTo (fallbackDescriptorOps cmd rid) (cmdPathOf rid) = false := by
  refine ⟨?_, by simp [queueCommandOps], by simp [fallbackDescriptorOps],
    by simp [fallbackDescriptorOps], by simp [fallbackDescriptorOps], ?_⟩
  · intro src dst
    simp [queueCommandOps]
  · have hne : (inboxCmdPath == cmdPathOf rid) = false :=
      beq_eq_false_iff_ne.2 (inboxCmdPath_ne_cmdPath rid)
    simp [hasRenameTo, fallbackDescriptorOps, hne]

/-- **C6** (witness for the amended theorem). -/
theorem descriptor_writes_direct_inbox_via_temp_witness :
    (∀ src dst, FsOp.rename src dst ∉ queueCommandOps "/tmp/b.wav" "99-zz" "cmd") ∧
    FsOp.rename (inboxCmdPath ++ ".tmp") inboxCmdPath ∈
      fallbackDescriptorOps (.runJsxText "alert(1)") "99-zz" ∧
    hasRenameTo (fallbackDescriptorOps (.runJsxText "alert(1)") "99-zz")
      (cmdPathOf "99-zz") = false :=
  ⟨(descriptor_writes_direct_inbox_via_temp "/tmp/b.wav" "99-zz" "cmd"
      (.runJsxText "alert(1)") "99-zz").1,
   (descriptor_writes_direct_inbox_via_temp "/tmp/b.wav" "99-zz" "cmd"
      (.runJsxText "alert(1)") "99-zz").2.2.1,
   (descriptor_writes_direct_inbox_via_temp "/tmp/b.wav" "99-zz" "cmd"
      (.runJsxText "alert(1)") "99-zz").2.2.2.2.2⟩

/-! ### C10: every command takes the direct branch -/

/-- **C10**.  Every `OnDemandCommand` value satisfies the direct-branch
condition, so with the host running and the automation call succeeding,
`runOnDemand` returns `{ok: true, operation: "direct", elapsedMs: 0}`
without ever writing the queued jobs descriptor, sleeping/polling, or
reading the artifact path — the queued-invocation/awaiter branch is
unreachable for every possible command. -/
theorem runOnDemand_always_direct (env : RODEnv) (cmd : OnDemandCommand) (rid : String)
    (hrun : env.running = true) (hok : env.fastInvokeOk = true) :
    isDirectAction cmd = true ∧
    (runOnDemand env cmd rid).1 = .ok (.direct ⟨true, rid, "direct", 0⟩) ∧
    (∀ c, FsOp.writeFile (cmdPathOf rid) c ∉ (runOnDemand env cmd rid).2) ∧
    (∀ n, FsOp.sleep n ∉ (runOnDemand env cmd rid).2) ∧
    FsOp.readFile (artifactPathOf rid) ∉ (runOnDemand env cmd rid).2 := by
  have hne := cmdPath_ne_directJsxPath rid
  cases cmd <;>
    (unfold runOnDemand
     simp [hrun, hok, isDirectAction, hne])

/-- **C10** (witness). -/
theorem runOnDemand_always_direct_witness :
    (runOnDemand ⟨true, true, true, 0, ""⟩ (.importAudio "/tmp/a.wav" false) "42-z").1 =
      .ok (.direct ⟨true, "42-z", "direct", 0⟩) ∧
    (∀ c, FsOp.writeFile (cmdPathOf "42-z") c ∉
      (runOnDemand ⟨true, true, true, 0, ""⟩ (.importAudio "/tmp/a.wav" false) "42-z").2) :=
  ⟨(runOnDemand_always_direct ⟨true, true, true, 0, ""⟩ (.importAudio "/tmp/a.wav" false)
      "42-z" rfl rfl).2.1,
   (runOnDemand_always_direct ⟨true, true, true, 0, ""⟩ (.importAudio "/tmp/a.wav" false)
      "42-z" rfl rfl).2.2.1⟩

/-! ### C9: the installer -/

namespace Install

theorem addDirs_nil (ds : List (List String)) : addDirs ds [] = ds := by
  simp [addDirs, newDirs]

theorem newDirs_cons (ds : List (List String)) (p : List String)
    (ps : List (List String)) :
    newDirs ds (p :: ps) =
      if p ∈ ds then newDirs ds ps else p :: newDirs (ds ++ [p]) ps := rfl

theorem addDirs_cons (ds : List (List String)) (p : List String)
    (ps : List (List String)) :
    addDirs ds (p :: ps) =
      if p ∈ ds then addDirs ds ps else addDirs (ds ++ [p]) ps := by
  unfold addDirs
  rw [newDirs_cons]
  split
  · rfl
  · simp

theorem mem_newDirs {ds : List (List String)} {ps : List (List String)}
    {q : List String} (h : q ∈ newDirs ds ps) : q ∈ ps ∧ q ∉ ds := by
  induction ps generalizing ds with
  | nil => simp [newDirs] at h
  | cons p ps ih =>
    unfold newDirs at h
    split at h
    · have := ih h
      exact ⟨.tail _ this.1, this.2⟩
    · rcases List.mem_cons.1 h with rfl | h2
      · exact ⟨.head _, by assumption⟩
      · have := ih h2
        refine ⟨.tail _ this.1, fun hq => this.2 (List.mem_append_left _ hq)⟩

theorem newDirs_eq_nil {ds ps : List (List String)} (h : ∀ q ∈ ps, q ∈ ds) :
    newDirs ds ps = [] := by
  induction ps with
  | nil => rfl
  | cons p ps ih =>
    unfold newDirs
    rw [if_pos (h p (.head _))]
    exact ih (fun q hq => h q (.tail _ hq))

theorem addDirs_eq_self {ds ps : List (List String)} (h : ∀ q ∈ ps, q ∈ ds) :
    addDirs ds ps = ds := by
  unfold addDirs
  rw [newDirs_eq_nil h, List.append_nil]

theorem mem_addDirs {ds ps : List (List String)} {q : List String} :
    q ∈ addDirs ds ps ↔ q ∈ ds ∨ q ∈ ps := by
  constructor
  · intro h
    rcases List.mem_append.1 h with h | h
    · exact .inl h
    · exact .inr (mem_newDirs h).1
  · intro h
    induction ps generalizing ds with
    | nil =>
      rw [addDirs_nil]
      exact h.resolve_right (by simp)
    | cons p ps ih =>
      rw [addDirs_cons]
      split
      · refine ih ?_
        rcases h with h | h
        · exact .inl h
        · rcases List.mem_cons.1 h with rfl | h
          · exact .inl (by assumption)
          · exact .inr h
      · refine ih ?_
        rcases h with h | h
        · exact .inl (List.mem_append_left _ h)
        · rcases List.mem_cons.1 h with rfl | h
          · exact .inl (by simp)
          · exact .inr h

theorem self_mem_ancestors {p : List String} (h : p ≠ []) : p ∈ ancestors p := by
  unfold ancestors
  have hlen : 0 < p.length := List.length_pos.2 h
  refine List.mem_map.2 ⟨p.length - 1, List.mem_range.2 (by omega), ?_⟩
  rw [Nat.sub_add_cancel hlen]
  exact List.take_length p

theorem mem_ancestors {p q : List String} (h : q ∈ ancestors p) :
    ∃ i < p.length, q = p.take (i + 1) := by
  unfold ancestors at h
  rcases List.mem_map.1 h with ⟨i, hi, rfl⟩
  exact ⟨i, List.mem_range.1 hi, rfl⟩

theorem childDirs_append (ds es : List (List String)) (b : List String) :
    childDirs (ds ++ es) b = childDirs ds b ++ childDirs es b :=
  List.filterMap_append _ _ _

theorem childDirs_eq_nil {es : List (List String)} {b : List String}
    (h : ∀ q ∈ es, q.dropLast ≠ b) : childDirs es b = [] := by
  unfold childDirs
  rw [List.filterMap_eq_nil_iff]
  intro q hq
  rw [if_neg (h q hq)]

theorem mem_of_childDirs {ds : List (List String)} {b : List String} {v : String}
    (h : v ∈ childDirs ds b) : b ++ [v] ∈ ds := by
  unfold childDirs at h
  rcases List.mem_filterMap.1 h with ⟨d, hd, he⟩
  split at he
  · rename_i hdrop
    have hne : d ≠ [] := by
      intro h0
      rw [h0] at he
      exact Option.noConfusion he
    rw [List.getLast?_eq_getLast d hne] at he
    have hv : d.getLast hne = v := Option.some.inj he
    have hbv : b ++ [v] = d := by
      rw [← hdrop, ← hv]
      exact List.dropLast_append_getLast hne
    rw [hbv]
    exact hd
  · exact Option.noConfusion he

theorem childDirs_of_child {ds : List (List String)} {b : List String} {v : String}
    (h : b ++ [v] ∈ ds) : v ∈ childDirs ds b := by
  unfold childDirs
  refine List.mem_filterMap.2 ⟨b ++ [v], h, ?_⟩
  rw [if_pos (List.dropLast_concat)]
  simp

theorem ancestors_take {p q : List String} (hq : q ∈ ancestors p) :
    q = p.take q.length := by
  rcases mem_ancestors hq with ⟨i, _hi, rfl⟩
  rw [List.length_take]
  refine (List.take_eq_take.2 ?_).symm
  omega

theorem ancestors_length_le {p q : List String} (hq : q ∈ ancestors p) :
    q.length ≤ p.length := by
  rcases mem_ancestors hq with ⟨i, _hi, rfl⟩
  rw [List.length_take]
  omega

theorem length_of_dropLast_eq {q b : List String} (h : q.dropLast = b) (hne : q ≠ []) :
    q.length = b.length + 1 := by
  have h1 : q.dropLast.length = q.length - 1 := List.length_dropLast q
  rw [h] at h1
  have h2 : 0 < q.length := List.length_pos.2 hne
  omega

/-- No ancestor of a path at most as long as `b` can be a child of `b`. -/
theorem ancestors_short_no_child {p b q : List String} (hp : p.length ≤ b.length)
    (hq : q ∈ ancestors p) : q.dropLast ≠ b := by
  intro hd
  rcases mem_ancestors hq with ⟨i, hi, rfl⟩
  have hdl : ((p.take (i + 1)).dropLast).length = (p.take (i + 1)).length - 1 :=
    List.length_dropLast _
  rw [hd, List.length_take] at hdl
  omega

/-- An ancestor of `base ++ v :: ws` that is a child of a same-length `b`
forces `base = b` and is the seed child `base ++ [v]`. -/
theorem ancestors_child_eq {base b : List String} {v : String} {ws q : List String}
    (hlen : base.length = b.length) (hq : q ∈ ancestors (base ++ v :: ws))
    (hd : q.dropLast = b) : base = b ∧ q = base ++ [v] := by
  have hne : q ≠ [] := by
    intro h0
    subst h0
    rcases mem_ancestors hq with ⟨i, hi, htake⟩
    have hl := congrArg List.length htake
    rw [List.length_take] at hl
    simp only [List.length_nil] at hl
    omega
  have hqlen : q.length = b.length + 1 := length_of_dropLast_eq hd hne
  have htake := ancestors_take hq
  have hql : q = base ++ [v] := by
    rw [htake, hqlen, ← hlen]
    rw [List.take_append_eq_append_take]
    rw [List.take_of_length_le (by omega)]
    congr 1
    have : base.length + 1 - base.length = 1 := by omega
    rw [this]
    rfl
  refine ⟨?_, hql⟩
  rw [hql] at hd
  rw [List.dropLast_concat] at hd
  exact hd

/-- An ancestor of `base ++ v :: ws` of the same length as `base` is
`base` itself. -/
theorem ancestors_base_eq {base : List String} {v : String} {ws q : List String}
    (hq : q ∈ ancestors (base ++ v :: ws)) (hlen : q.length = base.length) :
    q = base := by
  have htake := ancestors_take hq
  rw [htake, hlen, List.take_append_eq_append_take]
  rw [List.take_of_length_le (by omega)]
  simp

/-- An ancestor of `base` of the same length as `base` is `base`. -/
theorem ancestors_self_eq {base q : List String}
    (hq : q ∈ ancestors base) (hlen : q.length = base.length) : q = base := by
  have htake := ancestors_take hq
  rw [htake, hlen, List.take_length]

/-! Primitive operation lemmas -/

theorem tryMkdir_blocked {blocked : List (List String)} (fs : FS) {p : List String}
    (h : isBlocked blocked p = true) : tryMkdir blocked fs p = fs := by
  unfold tryMkdir mkdirRec
  rw [if_pos h]
  rfl

theorem tryMkdir_not_blocked {blocked : List (List String)} (fs : FS) {p : List String}
    (h : isBlocked blocked p = false) :
    tryMkdir blocked fs p = { fs with dirs := addDirs fs.dirs (ancestors p) } := by
  unfold tryMkdir mkdirRec
  rw [if_neg (by simp [h])]
  rfl

theorem tryMkdir_files (blocked : List (List String)) (fs : FS) (p : List String) :
    (tryMkdir blocked fs p).files = fs.files := by
  by_cases h : isBlocked blocked p
  · rw [tryMkdir_blocked fs h]
  · rw [tryMkdir_not_blocked fs (by simpa using h)]

theorem tryMkdir_extends (blocked : List (List String)) (fs : FS) (p : List String) :
    DirsExtend fs (tryMkdir blocked fs p)
      (fun q => isBlocked blocked p = false ∧ q ∈ ancestors p) := by
  by_cases h : isBlocked blocked p
  · rw [tryMkdir_blocked fs h]
    exact ⟨[], by simp⟩
  · rw [tryMkdir_not_blocked fs (by simpa using h)]
    refine ⟨newDirs fs.dirs (ancestors p), rfl, ?_⟩
    intro q hq
    exact ⟨⟨by simpa using h, (mem_newDirs hq).1⟩, (mem_newDirs hq).2⟩

theorem tryMkdir_of_ancestors_mem {blocked : List (List String)} {fs : FS}
    {p : List String} (h : ∀ q ∈ ancestors p, q ∈ fs.dirs) :
    tryMkdir blocked fs p = fs := by
  by_cases hb : isBlocked blocked p
  · exact tryMkdir_blocked fs hb
  · rw [tryMkdir_not_blocked fs (by simpa using hb), addDirs_eq_self h]

theorem mem_dirs_tryMkdir {blocked : List (List String)} {fs : FS} {p q : List String}
    (h : q ∈ fs.dirs) : q ∈ (tryMkdir blocked fs p).dirs := by
  by_cases hb : isBlocked blocked p
  · rw [tryMkdir_blocked fs hb]; exact h
  · rw [tryMkdir_not_blocked fs (by simpa using hb)]
    exact mem_addDirs.2 (.inl h)

theorem tryMkdir_ancestors_mem {blocked : List (List String)} {fs : FS} {p : List String}
    (h : isBlocked blocked p = false) :
    ∀ q ∈ ancestors p, q ∈ (tryMkdir blocked fs p).dirs := by
  intro q hq
  rw [tryMkdir_not_blocked fs h]
  exact mem_addDirs.2 (.inr hq)

theorem newDirs_nodup (ds : List (List String)) (ps : List (List String)) :
    (newDirs ds ps).Nodup := by
  induction ps generalizing ds with
  | nil => exact List.nodup_nil
  | cons p ps ih =>
    rw [newDirs_cons]
    split
    · exact ih ds
    · refine List.nodup_cons.2 ⟨?_, ih (ds ++ [p])⟩
      intro hmem
      exact (mem_newDirs hmem).2 (by simp)

theorem isBlocked_mono {blocked : List (List String)} {p q : List String}
    (hpq : p <+: q) (h : isBlocked blocked p = true) : isBlocked blocked q = true := by
  unfold isBlocked at *
  rcases List.any_eq_true.1 h with ⟨b, hb, hbp⟩
  exact List.any_eq_true.2 ⟨b, hb, by
    exact List.isPrefixOf_iff_prefix.2 ((List.isPrefixOf_iff_prefix.1 hbp).trans hpq)⟩

theorem isBlocked_anti {blocked : List (List String)} {p q : List String}
    (hpq : p <+: q) (h : isBlocked blocked q = false) : isBlocked blocked p = false := by
  by_contra hc
  rw [isBlocked_mono hpq (by simpa using hc)] at h
  exact Bool.noConfusion h

/-! `DirsExtend` combinators -/

theorem DirsExtend.refl (fs : FS) (P : List String → Prop) : DirsExtend fs fs P :=
  ⟨[], by simp⟩

theorem DirsExtend.mono {fs fs' : FS} {P Q : List String → Prop}
    (h : DirsExtend fs fs' P) (hpq : ∀ q, P q → Q q) : DirsExtend fs fs' Q := by
  rcases h with ⟨es, he, hq⟩
  exact ⟨es, he, fun q hmem => ⟨hpq q (hq q hmem).1, (hq q hmem).2⟩⟩

theorem DirsExtend.trans {fs1 fs2 fs3 : FS} {P : List String → Prop}
    (h12 : DirsExtend fs1 fs2 P) (h23 : DirsExtend fs2 fs3 P) :
    DirsExtend fs1 fs3 P := by
  rcases h12 with ⟨es1, he1, hq1⟩
  rcases h23 with ⟨es2, he2, hq2⟩
  refine ⟨es1 ++ es2, by rw [he2, he1, List.append_assoc], ?_⟩
  intro q hmem
  rcases List.mem_append.1 hmem with h | h
  · exact hq1 q h
  · refine ⟨(hq2 q h).1, fun hc => (hq2 q h).2 ?_⟩
    rw [he1]
    exact List.mem_append_left _ hc

theorem DirsExtend.mem_dirs {fs fs' : FS} {P : List String → Prop}
    (h : DirsExtend fs fs' P) {q : List String} (hq : q ∈ fs.dirs) : q ∈ fs'.dirs := by
  rcases h with ⟨es, he, _⟩
  rw [he]
  exact List.mem_append_left _ hq

theorem DirsExtend.mem_dirs_iff {fs fs' : FS} {P : List String → Prop}
    (h : DirsExtend fs fs' P) {b : List String}
    (hb : ∀ q, P q → q ∉ fs.dirs → q ≠ b) : b ∈ fs'.dirs ↔ b ∈ fs.dirs := by
  rcases h with ⟨es, he, hq⟩
  rw [he, List.mem_append]
  constructor
  · rintro (h | h)
    · exact h
    · exact absurd rfl (hb b (hq b h).1 (hq b h).2)
  · exact .inl

theorem DirsExtend.childDirs_eq {fs fs' : FS} {P : List String → Prop}
    (h : DirsExtend fs fs' P) {b : List String}
    (hb : ∀ q, P q → q ∉ fs.dirs → q.dropLast ≠ b) :
    childDirs fs'.dirs b = childDirs fs.dirs b := by
  rcases h with ⟨es, he, hq⟩
  rw [he, childDirs_append,
    childDirs_eq_nil (fun q hmem => hb q (hq q hmem).1 (hq q hmem).2),
    List.append_nil]

theorem DirsExtend.versionsOf_eq {fs fs' : FS} {P : List String → Prop}
    (h : DirsExtend fs fs' P) {b : List String}
    (hchild : ∀ q, P q → q ∉ fs.dirs → q.dropLast ≠ b)
    (hself : ∀ q, P q → q ∉ fs.dirs → q ≠ b) :
    versionsOf fs' b = versionsOf fs b := by
  unfold versionsOf
  by_cases hmem : b ∈ fs.dirs
  · rw [if_pos hmem, if_pos ((h.mem_dirs_iff hself).2 hmem), h.childDirs_eq hchild]
  · rw [if_neg hmem, if_neg (fun hc => hmem ((h.mem_dirs_iff hself).1 hc))]

/-! Upsert and `HasEntry` -/

theorem upsert_hasEntry (files : List (List String × String)) (p : List String)
    (c : String) : HasEntry (upsert files p c) p c := by
  unfold upsert HasEntry
  by_cases h : files.any (fun e => e.1 == p)
  · rw [if_pos h]
    rcases List.any_eq_true.1 h with ⟨e, he, hep⟩
    constructor
    · exact ⟨(p, c), List.mem_map.2 ⟨e, he, by rw [if_pos hep]⟩, rfl⟩
    · intro e' he' hkey
      rcases List.mem_map.1 he' with ⟨e0, he0, heq⟩
      by_cases h0 : e0.1 == p
      · rw [if_pos h0] at heq
        rw [← heq]
      · rw [if_neg h0] at heq
        rw [← heq] at hkey
        exact absurd (by simp [hkey]) h0
  · rw [if_neg h]
    constructor
    · exact ⟨(p, c), by simp⟩
    · intro e' he' hkey
      rcases List.mem_append.1 he' with h1 | h1
      · exact absurd (List.any_eq_true.2 ⟨e', h1, by simp [hkey]⟩) h
      · simp at h1
        rw [h1]

theorem upsert_preserves_hasEntry {files : List (List String × String)}
    {p : List String} {c : String} (q : List String)
    (h : HasEntry files p c) : HasEntry (upsert files q c) p c := by
  by_cases hpq : q = p
  · rw [hpq]
    exact upsert_hasEntry files p c
  · unfold upsert
    by_cases hany : files.any (fun e => e.1 == q)
    · rw [if_pos hany]
      constructor
      · rcases h.1 with ⟨e, he, hkey⟩
        refine ⟨e, List.mem_map.2 ⟨e, he, ?_⟩, hkey⟩
        have hne : (e.1 == q) = false := by
          rw [hkey]
          exact beq_eq_false_iff_ne.2 (fun hc => hpq hc.symm)
        rw [if_neg (by simp [hne])]
      · intro e' he' hkey
        rcases List.mem_map.1 he' with ⟨e0, he0, heq⟩
        by_cases h0 : e0.1 == q
        · rw [if_pos h0] at heq
          rw [← heq] at hkey
          exact absurd hkey hpq
        · rw [if_neg h0] at heq
          exact h.2 e' (heq ▸ he0) hkey
    · rw [if_neg hany]
      constructor
      · rcases h.1 with ⟨e, he, hkey⟩
        exact ⟨e, List.mem_append_left _ he, hkey⟩
      · intro e' he' hkey
        rcases List.mem_append.1 he' with h1 | h1
        · exact h.2 e' h1 hkey
        · simp at h1
          rw [h1] at hkey
          exact absurd hkey hpq

theorem upsert_eq_self {files : List (List String × String)} {p : List String}
    {c : String} (h : HasEntry files p c) : upsert files p c = files := by
  unfold upsert
  rcases h.1 with ⟨e, he, hkey⟩
  rw [if_pos (List.any_eq_true.2 ⟨e, he, by simp [hkey]⟩)]
  have : ∀ e' ∈ files, (if e'.1 == p then (p, c) else e') = e' := by
    intro e' he'
    by_cases h0 : e'.1 == p
    · rw [if_pos h0]
      have hk : e'.1 = p := by simpa using h0
      have hv : e'.2 = c := h.2 e' he' hk
      rw [← hk, ← hv]
    · rw [if_neg h0]
  calc files.map (fun e => if e.1 == p then (p, c) else e)
      = files.map id := List.map_congr_left this
    _ = files := List.map_id files

/-! `writeFile` and `installVersion` -/

theorem dirs_contains_iff (ds : List (List String)) (p : List String) :
    ds.contains p = true ↔ p ∈ ds := by
  simp [List.contains]

theorem startupDir_ne_nil (base : List String) (v : String) :
    startupDirOf base v ≠ [] := by
  simp [startupDirOf]

theorem scriptPath_dropLast (base : List String) (v : String) :
    (scriptPathOf base v).dropLast = startupDirOf base v := by
  unfold scriptPathOf
  exact List.dropLast_concat

theorem writeFile_some {blocked : List (List String)} {fs : FS} {p : List String}
    (c : String) (h1 : isBlocked blocked p = false) (h2 : p.dropLast ∈ fs.dirs) :
    writeFile blocked fs p c = some { fs with files := upsert fs.files p c } := by
  unfold writeFile
  simp [h1, h2, dirs_contains_iff]

theorem writeFile_blocked {blocked : List (List String)} (fs : FS) {p : List String}
    (c : String) (h : isBlocked blocked p = true) :
    writeFile blocked fs p c = none := by
  unfold writeFile
  rw [if_pos]
  simp [h]

theorem installVersion_blocked {blocked : List (List String)} (fs : FS)
    {base : List String} {v : String}
    (hs : isBlocked blocked (startupDirOf base v) = true) :
    installVersion blocked fs base v = (0, fs) := by
  unfold installVersion mkdirRec
  rw [if_pos hs]

theorem installVersion_mkdir_only {blocked : List (List String)} (fs : FS)
    {base : List String} {v : String}
    (hs : isBlocked blocked (startupDirOf base v) = false)
    (hw : isBlocked blocked (scriptPathOf base v) = true) :
    installVersion blocked fs base v =
      (0, { fs with dirs := addDirs fs.dirs (ancestors (startupDirOf base v)) }) := by
  unfold installVersion mkdirRec
  rw [if_neg (by simp [hs])]
  simp [writeFile_blocked _ _ hw]

theorem installVersion_ok {blocked : List (List String)} (fs : FS)
    {base : List String} {v : String}
    (hs : isBlocked blocked (startupDirOf base v) = false)
    (hw : isBlocked blocked (scriptPathOf base v) = false) :
    installVersion blocked fs base v =
      (1, { dirs := addDirs fs.dirs (ancestors (startupDirOf base v)),
            files := upsert fs.files (scriptPathOf base v) unifiedBridgeCode }) := by
  unfold installVersion mkdirRec
  rw [if_neg (by simp [hs])]
  have hmem : (scriptPathOf base v).dropLast ∈
      (FS.mk (addDirs fs.dirs (ancestors (startupDirOf base v))) fs.files).dirs := by
    rw [scriptPath_dropLast]
    exact mem_addDirs.2 (.inr (self_mem_ancestors (startupDir_ne_nil base v)))
  simp [writeFile_some unifiedBridgeCode hw hmem]

theorem installVersion_fst (blocked : List (List String)) (fs : FS)
    (base : List String) (v : String) :
    (installVersion blocked fs base v).1 =
      if versionInstallOk blocked base v then 1 else 0 := by
  by_cases hs : isBlocked blocked (startupDirOf base v) = true
  · rw [installVersion_blocked fs hs]
    simp [versionInstallOk, hs]
  · have hs' : isBlocked blocked (startupDirOf base v) = false := by simpa using hs
    by_cases hw : isBlocked blocked (scriptPathOf base v) = true
    · rw [installVersion_mkdir_only fs hs' hw]
      simp [versionInstallOk, hs', hw]
    · have hw' : isBlocked blocked (scriptPathOf base v) = false := by simpa using hw
      rw [installVersion_ok fs hs' hw']
      simp [versionInstallOk, hs', hw']

theorem installVersion_replay {blocked : List (List String)} {fs : FS}
    {base : List String} {v : String}
    (hb : isBlocked blocked (startupDirOf base v) = false →
      ∀ q ∈ ancestors (startupDirOf base v), q ∈ fs.dirs)
    (hf : versionInstallOk blocked base v = true →
      HasEntry fs.files (scriptPathOf base v) unifiedBridgeCode) :
    (installVersion blocked fs base v).2 = fs := by
  by_cases hs : isBlocked blocked (startupDirOf base v) = true
  · rw [installVersion_blocked fs hs]
  · have hs' : isBlocked blocked (startupDirOf base v) = false := by simpa using hs
    have hdirs : addDirs fs.dirs (ancestors (startupDirOf base v)) = fs.dirs :=
      addDirs_eq_self (hb hs')
    by_cases hw : isBlocked blocked (scriptPathOf base v) = true
    · rw [installVersion_mkdir_only fs hs' hw]
      rw [hdirs]
    · have hw' : isBlocked blocked (scriptPathOf base v) = false := by simpa using hw
      rw [installVersion_ok fs hs' hw']
      have hfe := hf (by simp [versionInstallOk, hs', hw'])
      rw [hdirs, upsert_eq_self hfe]

theorem installVersion_extends (blocked : List (List String)) (fs : FS)
    (base : List String) (v : String) :
    DirsExtend fs (installVersion blocked fs base v).2
      (fun q => isBlocked blocked (startupDirOf base v) = false ∧
        q ∈ ancestors (startupDirOf base v)) := by
  by_cases hs : isBlocked blocked (startupDirOf base v) = true
  · rw [installVersion_blocked fs hs]
    exact DirsExtend.refl fs _
  · have hs' : isBlocked blocked (startupDirOf base v) = false := by simpa using hs
    have key : ∀ g : FS, g.dirs = addDirs fs.dirs (ancestors (startupDirOf base v)) →
        DirsExtend fs g
          (fun q => isBlocked blocked (startupDirOf base v) = false ∧
            q ∈ ancestors (startupDirOf base v)) := by
      intro g hg
      refine ⟨newDirs fs.dirs (ancestors (startupDirOf base v)), hg, ?_⟩
      intro q hq
      exact ⟨⟨hs', (mem_newDirs hq).1⟩, (mem_newDirs hq).2⟩
    by_cases hw : isBlocked blocked (scriptPathOf base v) = true
    · rw [installVersion_mkdir_only fs hs' hw]
      exact key _ rfl
    · have hw' : isBlocked blocked (scriptPathOf base v) = false := by simpa using hw
      rw [installVersion_ok fs hs' hw']
      exact key _ rfl

theorem installVersion_files (blocked : List (List String)) (fs : FS)
    (base : List String) (v : String) :
    (installVersion blocked fs base v).2.files = fs.files ∨
    (installVersion blocked fs base v).2.files =
      upsert fs.files (scriptPathOf base v) unifiedBridgeCode := by
  by_cases hs : isBlocked blocked (startupDirOf base v) = true
  · rw [installVersion_blocked fs hs]
    exact .inl rfl
  · have hs' : isBlocked blocked (startupDirOf base v) = false := by simpa using hs
    by_cases hw : isBlocked blocked (scriptPathOf base v) = true
    · rw [installVersion_mkdir_only fs hs' hw]
      exact .inl rfl
    · have hw' : isBlocked blocked (scriptPathOf base v) = false := by simpa using hw
      rw [installVersion_ok fs hs' hw']
      exact .inr rfl

theorem installVersion_preserves_hasEntry {blocked : List (List String)} {fs : FS}
    {base : List String} {v : String} {p : List String}
    (h : HasEntry fs.files p unifiedBridgeCode) :
    HasEntry (installVersion blocked fs base v).2.files p unifiedBridgeCode := by
  rcases installVersion_files blocked fs base v with h1 | h1 <;> rw [h1]
  · exact h
  · exact upsert_preserves_hasEntry _ h

theorem installVersion_establish_dirs {blocked : List (List String)} (fs : FS)
    {base : List String} {v : String}
    (hs : isBlocked blocked (startupDirOf base v) = false) :
    ∀ q ∈ ancestors (startupDirOf base v), q ∈ (installVersion blocked fs base v).2.dirs := by
  intro q hq
  by_cases hw : isBlocked blocked (scriptPathOf base v) = true
  · rw [installVersion_mkdir_only fs hs hw]
    exact mem_addDirs.2 (.inr hq)
  · have hw' : isBlocked blocked (scriptPathOf base v) = false := by simpa using hw
    rw [installVersion_ok fs hs hw']
    exact mem_addDirs.2 (.inr hq)

theorem installVersion_establish_file {blocked : List (List String)} (fs : FS)
    {base : List String} {v : String}
    (hok : versionInstallOk blocked base v = true) :
    HasEntry (installVersion blocked fs base v).2.files (scriptPathOf base v)
      unifiedBridgeCode := by
  have hs : isBlocked blocked (startupDirOf base v) = false := by
    have := hok
    unfold versionInstallOk at this
    simp at this
    exact this.1
  have hw : isBlocked blocked (scriptPathOf base v) = false := by
    have := hok
    unfold versionInstallOk at this
    simp at this
    exact this.2
  rw [installVersion_ok fs hs hw]
  exact upsert_hasEntry _ _ _

/-! The inner install fold -/

theorem installVersions_nil (blocked : List (List String)) (base : List String)
    (acc : Nat × FS) : installVersions blocked base acc [] = acc := rfl

theorem installVersions_cons (blocked : List (List String)) (base : List String)
    (acc : Nat × FS) (v : String) (vs : List String) :
    installVersions blocked base acc (v :: vs) =
      installVersions blocked base
        (acc.1 + (installVersion blocked acc.2 base v).1,
         (installVersion blocked acc.2 base v).2) vs := rfl

theorem countVersions_nil (blocked : List (List String)) (base : List String) :
    countVersions blocked base [] = 0 := rfl

theorem countVersions_cons (blocked : List (List String)) (base : List String)
    (v : String) (vs : List String) :
    countVersions blocked base (v :: vs) =
      (if versionInstallOk blocked base v then 1 else 0) + countVersions blocked base vs := by
  unfold countVersions
  rw [List.filter_cons]
  split <;> simp [Nat.add_comm]

theorem installVersions_fst (blocked : List (List String)) (base : List String)
    (vs : List String) :
    ∀ n fs, (installVersions blocked base (n, fs) vs).1 =
      n + countVersions blocked base vs := by
  induction vs with
  | nil => intro n fs; simp [installVersions_nil, countVersions_nil]
  | cons v vs ih =>
    intro n fs
    rw [installVersions_cons, ih, installVersion_fst, countVersions_cons]
    omega

theorem installVersions_replay {blocked : List (List String)} {base : List String}
    {fs : FS} (vs : List String)
    (h : ∀ v ∈ vs,
      (isBlocked blocked (startupDirOf base v) = false →
        ∀ q ∈ ancestors (startupDirOf base v), q ∈ fs.dirs) ∧
      (versionInstallOk blocked base v = true →
        HasEntry fs.files (scriptPathOf base v) unifiedBridgeCode)) :
    ∀ n, (installVersions blocked base (n, fs) vs).2 = fs := by
  induction vs with
  | nil => intro n; rw [installVersions_nil]
  | cons v vs ih =>
    intro n
    rw [installVersions_cons]
    have hrep : (installVersion blocked fs base v).2 = fs :=
      installVersion_replay (h v (.head _)).1 (h v (.head _)).2
    rw [hrep]
    exact ih (fun v' hv' => h v' (.tail _ hv')) _

theorem installVersions_extends (blocked : List (List String)) (base : List String)
    (vs : List String) :
    ∀ n fs, DirsExtend fs (installVersions blocked base (n, fs) vs).2
      (fun q => ∃ v ∈ vs, isBlocked blocked (startupDirOf base v) = false ∧
        q ∈ ancestors (startupDirOf base v)) := by
  induction vs with
  | nil =>
    intro n fs
    rw [installVersions_nil]
    exact DirsExtend.refl fs _
  | cons v vs ih =>
    intro n fs
    rw [installVersions_cons]
    have h1 := (installVersion_extends blocked fs base v).mono
      (Q := fun q => ∃ v' ∈ v :: vs, isBlocked blocked (startupDirOf base v') = false ∧
        q ∈ ancestors (startupDirOf base v'))
      (fun q hq => ⟨v, .head _, hq⟩)
    have h2 := (ih (n + (installVersion blocked fs base v).1)
        (installVersion blocked fs base v).2).mono
      (Q := fun q => ∃ v' ∈ v :: vs, isBlocked blocked (startupDirOf base v') = false ∧
        q ∈ ancestors (startupDirOf base v'))
      (fun q hq => by
        rcases hq with ⟨v', hv', hrest⟩
        exact ⟨v', .tail _ hv', hrest⟩)
    exact h1.trans h2

theorem installVersions_preserves_hasEntry {blocked : List (List String)}
    {base : List String} {p : List String} (vs : List String) :
    ∀ n fs, HasEntry fs.files p unifiedBridgeCode →
      HasEntry (installVersions blocked base (n, fs) vs).2.files p unifiedBridgeCode := by
  induction vs with
  | nil => intro n fs h; rw [installVersions_nil]; exact h
  | cons v vs ih =>
    intro n fs h
    rw [installVersions_cons]
    exact ih _ _ (installVersion_preserves_hasEntry h)

theorem installVersions_mem_dirs {blocked : List (List String)} {base : List String}
    (vs : List String) {q : List String} :
    ∀ n fs, q ∈ fs.dirs → q ∈ (installVersions blocked base (n, fs) vs).2.dirs := by
  intro n fs h
  exact (installVersions_extends blocked base vs n fs).mem_dirs h

theorem installVersions_establish (blocked : List (List String)) (base : List String)
    (vs : List String) :
    ∀ n fs, ∀ v ∈ vs,
      (isBlocked blocked (startupDirOf base v) = false →
        ∀ q ∈ ancestors (startupDirOf base v),
          q ∈ (installVersions blocked base (n, fs) vs).2.dirs) ∧
      (versionInstallOk blocked base v = true →
        HasEntry (installVersions blocked base (n, fs) vs).2.files
          (scriptPathOf base v) unifiedBridgeCode) := by
  induction vs with
  | nil => intro n fs v hv; exact absurd hv (by simp)
  | cons v0 vs ih =>
    intro n fs v hv
    rw [installVersions_cons]
    rcases List.mem_cons.1 hv with rfl | hv'
    · constructor
      · intro hbl q hq
        exact installVersions_mem_dirs vs _ _
          (installVersion_establish_dirs fs hbl q hq)
      · intro hok
        exact installVersions_preserves_hasEntry vs _ _
          (installVersion_establish_file fs hok)
    · exact ih _ _ v hv'

/-! The seed fold -/

theorem seedFold_nil (blocked : List (List String)) (base : List String) (fs : FS) :
    seedFold blocked base fs [] = fs := rfl

theorem seedFold_cons (blocked : List (List String)) (base : List String) (fs : FS)
    (v : String) (vs : List String) :
    seedFold blocked base fs (v :: vs) =
      seedFold blocked base (tryMkdir blocked fs (base ++ [v])) vs := rfl

theorem seedFold_files (blocked : List (List String)) (base : List String)
    (vs : List String) : ∀ fs, (seedFold blocked base fs vs).files = fs.files := by
  induction vs with
  | nil => intro fs; rw [seedFold_nil]
  | cons v vs ih =>
    intro fs
    rw [seedFold_cons, ih, tryMkdir_files]

theorem seedFold_extends (blocked : List (List String)) (base : List String)
    (vs : List String) :
    ∀ fs, DirsExtend fs (seedFold blocked base fs vs)
      (fun q => ∃ v ∈ vs, isBlocked blocked (base ++ [v]) = false ∧
        q ∈ ancestors (base ++ [v])) := by
  induction vs with
  | nil =>
    intro fs
    rw [seedFold_nil]
    exact DirsExtend.refl fs _
  | cons v vs ih =>
    intro fs
    rw [seedFold_cons]
    have h1 := (tryMkdir_extends blocked fs (base ++ [v])).mono
      (Q := fun q => ∃ v' ∈ v :: vs, isBlocked blocked (base ++ [v']) = false ∧
        q ∈ ancestors (base ++ [v']))
      (fun q hq => ⟨v, .head _, hq⟩)
    have h2 := (ih (tryMkdir blocked fs (base ++ [v]))).mono
      (Q := fun q => ∃ v' ∈ v :: vs, isBlocked blocked (base ++ [v']) = false ∧
        q ∈ ancestors (base ++ [v']))
      (fun q hq => by
        rcases hq with ⟨v', hv', hrest⟩
        exact ⟨v', .tail _ hv', hrest⟩)
    exact h1.trans h2

theorem seedFold_replay {blocked : List (List String)} {base : List String}
    (vs : List String) :
    ∀ fs, (∀ v ∈ vs, isBlocked blocked (base ++ [v]) = true ∨
      ∀ q ∈ ancestors (base ++ [v]), q ∈ fs.dirs) →
    seedFold blocked base fs vs = fs := by
  induction vs with
  | nil => intro fs _; rw [seedFold_nil]
  | cons v vs ih =>
    intro fs h
    rw [seedFold_cons]
    have hstep : tryMkdir blocked fs (base ++ [v]) = fs := by
      rcases h v (.head _) with hb | hm
      · exact tryMkdir_blocked fs hb
      · exact tryMkdir_of_ancestors_mem hm
    rw [hstep]
    exact ih fs (fun v' hv' => h v' (.tail _ hv'))

theorem seedFold_establish (blocked : List (List String)) (base : List String)
    (vs : List String) :
    ∀ fs, ∀ v ∈ vs, isBlocked blocked (base ++ [v]) = false →
      ∀ q ∈ ancestors (base ++ [v]), q ∈ (seedFold blocked base fs vs).dirs := by
  induction vs with
  | nil => intro fs v hv; exact absurd hv (by simp)
  | cons v0 vs ih =>
    intro fs v hv hbl q hq
    rw [seedFold_cons]
    rcases List.mem_cons.1 hv with rfl | hv'
    · exact (seedFold_extends blocked base vs _).mem_dirs
        (tryMkdir_ancestors_mem hbl q hq)
    · exact ih _ v hv' hbl q hq

theorem childDirs_eq_single {es : List (List String)} {b : List String} {v : String}
    (hmem : b ++ [v] ∈ es) (hnd : es.Nodup)
    (hall : ∀ q ∈ es, q.dropLast = b → q = b ++ [v]) : childDirs es b = [v] := by
  induction es with
  | nil => exact absurd hmem (by simp)
  | cons q es ih =>
    by_cases hq : q = b ++ [v]
    · subst hq
      unfold childDirs
      rw [List.filterMap_cons]
      rw [if_pos List.dropLast_concat]
      rw [List.getLast?_concat]
      have hnotin : (b ++ [v]) ∉ es := (List.nodup_cons.1 hnd).1
      have : childDirs es b = [] := childDirs_eq_nil (fun q' hq' hd => by
        have := hall q' (.tail _ hq') hd
        rw [this] at hq'
        exact hnotin hq')
      unfold childDirs at this
      rw [this]
    · have hd : q.dropLast ≠ b := fun hd => hq (hall q (.head _) hd)
      unfold childDirs
      rw [List.filterMap_cons, if_neg hd]
      have hmem' : b ++ [v] ∈ es := by
        rcases List.mem_cons.1 hmem with h | h
        · exact absurd h.symm hq
        · exact h
      exact ih hmem' (List.nodup_cons.1 hnd).2
        (fun q' hq' hd' => hall q' (.tail _ hq') hd')

theorem seedFold_childDirs {blocked : List (List String)} {b : List String}
    (vs : List String) (hnd : vs.Nodup) :
    ∀ fs, (∀ v ∈ vs, b ++ [v] ∉ fs.dirs) →
    childDirs (seedFold blocked b fs vs).dirs b =
      childDirs fs.dirs b ++ vs.filter (fun v => !isBlocked blocked (b ++ [v])) := by
  induction vs with
  | nil => intro fs _; rw [seedFold_nil]; simp
  | cons v vs ih =>
    intro fs hnot
    rw [seedFold_cons]
    by_cases hbl : isBlocked blocked (b ++ [v]) = true
    · rw [tryMkdir_blocked fs hbl]
      rw [ih (List.nodup_cons.1 hnd).2 fs (fun v' hv' => hnot v' (.tail _ hv'))]
      rw [List.filter_cons, if_neg (by simp [hbl])]
    · have hbl' : isBlocked blocked (b ++ [v]) = false := by simpa using hbl
      have hstep : childDirs (tryMkdir blocked fs (b ++ [v])).dirs b =
          childDirs fs.dirs b ++ [v] := by
        rw [tryMkdir_not_blocked fs hbl']
        show childDirs (addDirs fs.dirs (ancestors (b ++ [v]))) b = _
        unfold addDirs
        rw [childDirs_append]
        congr 1
        refine childDirs_eq_single ?_ (newDirs_nodup _ _) ?_
        · have hin : b ++ [v] ∈ addDirs fs.dirs (ancestors (b ++ [v])) :=
            mem_addDirs.2 (.inr (self_mem_ancestors (by simp)))
          unfold addDirs at hin
          rcases List.mem_append.1 hin with h | h
          · exact absurd h (hnot v (.head _))
          · exact h
        · intro q hq hd
          have hanc := (mem_newDirs hq).1
          have := @ancestors_child_eq b b v [] q rfl hanc hd
          exact this.2
      rw [ih (List.nodup_cons.1 hnd).2 _ ?_]
      · rw [hstep, List.filter_cons, if_pos (by simp [hbl'])]
        simp
      · intro v' hv'
        have hne : b ++ [v'] ∉ fs.dirs := hnot v' (.tail _ hv')
        rcases tryMkdir_extends blocked fs (b ++ [v]) with ⟨es, he, hq⟩
        rw [he]
        intro hc
        rcases List.mem_append.1 hc with h | h
        · exact hne h
        · have hanc := (hq _ h).1.2
          have hchild := @ancestors_child_eq b b v [] (b ++ [v'])
            rfl hanc List.dropLast_concat
          have : v' = v := by
            have := hchild.2
            have h2 := List.append_cancel_left this
            exact List.singleton_inj.1 h2
          rw [this] at hv'
          exact (List.nodup_cons.1 hnd).1 hv'

/-! `discoverOne` -/

theorem discoverOne_base (blocked : List (List String)) (fs : FS) (b : List String) :
    (discoverOne blocked fs b).1.base = b := by
  unfold discoverOne
  dsimp only
  split <;> rfl

theorem discoverOne_caseN {blocked : List (List String)} {fs : FS} {b : List String}
    (h : versionsOf (tryMkdir blocked fs b) b ≠ []) :
    discoverOne blocked fs b =
      (⟨b, versionsOf (tryMkdir blocked fs b) b⟩, tryMkdir blocked fs b) := by
  unfold discoverOne
  dsimp only
  rw [if_neg h]

theorem discoverOne_caseE {blocked : List (List String)} {fs : FS} {b : List String}
    (h : versionsOf (tryMkdir blocked fs b) b = []) :
    discoverOne blocked fs b =
      (⟨b, seedVersions⟩, seedFold blocked b (tryMkdir blocked fs b) seedVersions) := by
  unfold discoverOne
  dsimp only
  rw [if_pos h]

theorem discoverOne_files (blocked : List (List String)) (fs : FS) (b : List String) :
    (discoverOne blocked fs b).2.files = fs.files := by
  by_cases h : versionsOf (tryMkdir blocked fs b) b = []
  · rw [discoverOne_caseE h]
    show (seedFold blocked b (tryMkdir blocked fs b) seedVersions).files = fs.files
    rw [seedFold_files, tryMkdir_files]
  · rw [discoverOne_caseN h]
    exact tryMkdir_files blocked fs b

theorem discoverOne_extends (blocked : List (List String)) (fs : FS) (b : List String) :
    DirsExtend fs (discoverOne blocked fs b).2 (PdiscOf blocked b) := by
  have h1 := (tryMkdir_extends blocked fs b).mono (Q := PdiscOf blocked b)
    (fun q hq => .inl hq)
  by_cases h : versionsOf (tryMkdir blocked fs b) b = []
  · rw [discoverOne_caseE h]
    refine h1.trans ?_
    exact (seedFold_extends blocked b seedVersions _).mono
      (fun q hq => .inr (by
        rcases hq with ⟨v, hv, hrest⟩
        exact ⟨v, hv, hrest⟩))
  · rw [discoverOne_caseN h]
    exact h1

theorem discoverOne_child_mem {blocked : List (List String)} {fs : FS} {b : List String} :
    ∀ v ∈ (discoverOne blocked fs b).1.versions,
      isBlocked blocked (startupDirOf b v) = false →
      b ++ [v] ∈ (discoverOne blocked fs b).2.dirs := by
  intro v hv hbl
  by_cases h : versionsOf (tryMkdir blocked fs b) b = []
  · rw [discoverOne_caseE h] at hv ⊢
    have hseed : isBlocked blocked (b ++ [v]) = false :=
      isBlocked_anti ⟨["Scripts", "Startup"], by simp [startupDirOf]⟩ hbl
    exact seedFold_establish blocked b seedVersions _ v hv hseed (b ++ [v])
      (self_mem_ancestors (by simp))
  · rw [discoverOne_caseN h] at hv ⊢
    show b ++ [v] ∈ (tryMkdir blocked fs b).dirs
    have hv' : v ∈ versionsOf (tryMkdir blocked fs b) b := hv
    unfold versionsOf at hv'
    split at hv'
    · exact mem_of_childDirs hv'
    · exact absurd hv' (by simp)

theorem discoverOne_base_mem {blocked : List (List String)} {fs : FS} {b : List String}
    (hbl : isBlocked blocked b = false) :
    ∀ q ∈ ancestors b, q ∈ (discoverOne blocked fs b).2.dirs := by
  intro q hq
  by_cases h : versionsOf (tryMkdir blocked fs b) b = []
  · rw [discoverOne_caseE h]
    exact (seedFold_extends blocked b seedVersions _).mem_dirs
      (tryMkdir_ancestors_mem hbl q hq)
  · rw [discoverOne_caseN h]
    exact tryMkdir_ancestors_mem hbl q hq

theorem discoverOne_versions_spec {blocked : List (List String)} {fs : FS}
    {b : List String} (hb : b ≠ []) :
    (versionsOf (tryMkdir blocked fs b) b ≠ [] →
      (discoverOne blocked fs b).1.versions = versionsOf (tryMkdir blocked fs b) b ∧
      versionsOf (discoverOne blocked fs b).2 b = versionsOf (tryMkdir blocked fs b) b) ∧
    (versionsOf (tryMkdir blocked fs b) b = [] →
      (discoverOne blocked fs b).1.versions = seedVersions ∧
      versionsOf (discoverOne blocked fs b).2 b =
        seedVersions.filter (fun v => !isBlocked blocked (b ++ [v]))) := by
  constructor
  · intro h
    rw [discoverOne_caseN h]
    exact ⟨rfl, rfl⟩
  · intro h
    rw [discoverOne_caseE h]
    refine ⟨rfl, ?_⟩
    show versionsOf (seedFold blocked b (tryMkdir blocked fs b) seedVersions) b = _
    by_cases hmem : b ∈ (tryMkdir blocked fs b).dirs
    · have hchild : childDirs (tryMkdir blocked fs b).dirs b = [] := by
        unfold versionsOf at h
        rw [if_pos hmem] at h
        exact h
      have hnot : ∀ v ∈ seedVersions, b ++ [v] ∉ (tryMkdir blocked fs b).dirs := by
        intro v _ hc
        have := childDirs_of_child hc
        rw [hchild] at this
        exact absurd this (by simp)
      have hcd := @seedFold_childDirs blocked b seedVersions (by decide)
        (tryMkdir blocked fs b) hnot
      rw [hchild, List.nil_append] at hcd
      unfold versionsOf
      rw [if_pos ((seedFold_extends blocked b seedVersions _).mem_dirs hmem), hcd]
    · have hblb : isBlocked blocked b = true := by
        by_contra hc
        exact hmem (tryMkdir_ancestors_mem (by simpa using hc) b (self_mem_ancestors hb))
      have hseeds : ∀ v ∈ seedVersions, isBlocked blocked (b ++ [v]) = true := by
        intro v _
        exact isBlocked_mono ⟨[v], rfl⟩ hblb
      have hrep : seedFold blocked b (tryMkdir blocked fs b) seedVersions =
          tryMkdir blocked fs b :=
        seedFold_replay seedVersions _ (fun v hv => .inl (hseeds v hv))
      rw [hrep]
      unfold versionsOf
      rw [if_neg hmem]
      rw [List.filter_eq_nil_iff.2 (fun v hv => by simp [hseeds v hv])]

/-! Exclusion of cross-base directory creation -/

theorem exclusion_disc {blocked : List (List String)} {b b' : List String}
    (hb : b.length = 5) (hb' : b'.length = 5) (hne : b' ≠ b) :
    ∀ q, PdiscOf blocked b' q → q.dropLast ≠ b ∧ q ≠ b := by
  intro q hq
  rcases hq with ⟨_, hanc⟩ | ⟨v, _, _, hanc⟩
  · constructor
    · exact ancestors_short_no_child (by omega) hanc
    · intro hqb
      have : q = b' := ancestors_self_eq hanc (by rw [hqb]; omega)
      rw [hqb] at this
      exact hne this.symm
  · have hanc' : q ∈ ancestors (b' ++ v :: []) := hanc
    constructor
    · intro hd
      exact hne (ancestors_child_eq (by omega) hanc' hd).1
    · intro hqb
      have : q = b' := ancestors_base_eq hanc' (by rw [hqb]; omega)
      rw [hqb] at this
      exact hne this.symm

theorem exclusion_install {blocked : List (List String)} {b : List String}
    (hb : b.length = 5) {t : BridgeTarget} (ht5 : t.base.length = 5) {g : FS}
    (hP2 : t.base = b → ∀ v ∈ t.versions,
      isBlocked blocked (startupDirOf b v) = false → b ++ [v] ∈ g.dirs)
    (hP3 : t.base = b → isBlocked blocked b = false → b ∈ g.dirs) :
    ∀ q, PinstOf blocked t q → q ∉ g.dirs → q.dropLast ≠ b ∧ q ≠ b := by
  intro q hq hnin
  rcases hq with ⟨v, hv, hbl, hanc⟩
  have hanc' : q ∈ ancestors (t.base ++ v :: ["Scripts", "Startup"]) := hanc
  constructor
  · intro hd
    rcases ancestors_child_eq (by omega) hanc' hd with ⟨heq, hqe⟩
    refine hnin ?_
    rw [hqe, heq]
    refine hP2 heq v hv ?_
    rw [← heq]
    exact hbl
  · intro hqb
    have hqt : q = t.base := ancestors_base_eq hanc' (by rw [hqb]; omega)
    have heq : t.base = b := by rw [← hqt, hqb]
    refine hnin ?_
    rw [hqb]
    refine hP3 heq ?_
    have hpre : b <+: startupDirOf t.base v := by
      rw [heq]
      exact ⟨[v, "Scripts", "Startup"], rfl⟩
    exact isBlocked_anti hpre hbl

/-! Assembling the pipeline -/

theorem installAll_pair (blocked : List (List String)) (fs : FS) (t1 t2 : BridgeTarget) :
    installAll blocked fs [t1, t2] =
      installVersions blocked t2.base
        (installVersions blocked t1.base (0, fs) t1.versions) t2.versions := rfl

theorem discoverAETargets_eq (blocked : List (List String)) (fs : FS) :
    discoverAETargets blocked fs =
      ([(discoverOne blocked fs base1).1,
        (discoverOne blocked (discoverOne blocked fs base1).2 base2).1],
       (discoverOne blocked (discoverOne blocked fs base1).2 base2).2) := rfl

theorem installUnifiedBridge_eq (blocked : List (List String)) (f : FS) :
    installUnifiedBridge blocked f =
      (if (installAll blocked (discoverAETargets blocked f).2
            (discoverAETargets blocked f).1).1 = 0
       then ((⟨false, 0, "Could not create any Startup folder"⟩ : BridgeInstallResult),
             (installAll blocked (discoverAETargets blocked f).2
               (discoverAETargets blocked f).1).2)
       else (⟨true,
              (installAll blocked (discoverAETargets blocked f).2
                (discoverAETargets blocked f).1).1,
              "Installed Bridge in " ++
                toString (installAll blocked (discoverAETargets blocked f).2
                  (discoverAETargets blocked f).1).1 ++ " version(s)"⟩,
             (installAll blocked (discoverAETargets blocked f).2
               (discoverAETargets blocked f).1).2)) := rfl

theorem installVersions_fst' (blocked : List (List String)) (base : List String)
    (vs : List String) (acc : Nat × FS) :
    (installVersions blocked base acc vs).1 = acc.1 + countVersions blocked base vs :=
  installVersions_fst blocked base vs acc.1 acc.2

theorem installVersions_replay' {blocked : List (List String)} {base : List String}
    {acc : Nat × FS} (vs : List String)
    (h : ∀ v ∈ vs,
      (isBlocked blocked (startupDirOf base v) = false →
        ∀ q ∈ ancestors (startupDirOf base v), q ∈ acc.2.dirs) ∧
      (versionInstallOk blocked base v = true →
        HasEntry acc.2.files (scriptPathOf base v) unifiedBridgeCode)) :
    (installVersions blocked base acc vs).2 = acc.2 :=
  installVersions_replay vs h acc.1

theorem installVersions_extends' (blocked : List (List String)) (base : List String)
    (vs : List String) (acc : Nat × FS) :
    DirsExtend acc.2 (installVersions blocked base acc vs).2
      (fun q => ∃ v ∈ vs, isBlocked blocked (startupDirOf base v) = false ∧
        q ∈ ancestors (startupDirOf base v)) :=
  installVersions_extends blocked base vs acc.1 acc.2

theorem installVersions_establish' (blocked : List (List String)) (base : List String)
    (vs : List String) (acc : Nat × FS) :
    ∀ v ∈ vs,
      (isBlocked blocked (startupDirOf base v) = false →
        ∀ q ∈ ancestors (startupDirOf base v),
          q ∈ (installVersions blocked base acc vs).2.dirs) ∧
      (versionInstallOk blocked base v = true →
        HasEntry (installVersions blocked base acc vs).2.files
          (scriptPathOf base v) unifiedBridgeCode) :=
  installVersions_establish blocked base vs acc.1 acc.2

theorem installVersions_preserves_hasEntry' {blocked : List (List String)}
    {base : List String} {p : List String} (vs : List String) (acc : Nat × FS)
    (h : HasEntry acc.2.files p unifiedBridgeCode) :
    HasEntry (installVersions blocked base acc vs).2.files p unifiedBridgeCode :=
  installVersions_preserves_hasEntry vs acc.1 acc.2 h

theorem installVersions_mem_dirs' {blocked : List (List String)} {base : List String}
    (vs : List String) (acc : Nat × FS) {q : List String} (h : q ∈ acc.2.dirs) :
    q ∈ (installVersions blocked base acc vs).2.dirs :=
  installVersions_mem_dirs vs acc.1 acc.2 h

theorem versionInstallOk_seed {blocked : List (List String)} {b : List String}
    {v : String} (h : versionInstallOk blocked b v = true) :
    isBlocked blocked (b ++ [v]) = false := by
  unfold versionInstallOk at h
  simp at h
  exact isBlocked_anti ⟨["Scripts", "Startup"], by simp [startupDirOf]⟩ h.1

theorem countVersions_filter (blocked : List (List String)) (b : List String)
    (vs : List String) (P : String → Bool)
    (himp : ∀ v, versionInstallOk blocked b v = true → P v = true) :
    countVersions blocked b (vs.filter P) = countVersions blocked b vs := by
  unfold countVersions
  rw [List.filter_filter]
  congr 1
  refine List.filter_congr ?_
  intro v _
  cases hok : versionInstallOk blocked b v
  · simp
  · simp [himp v hok]

theorem base1_ne_base2 : base1 ≠ base2 := by decide

theorem base1_ne_nil : base1 ≠ [] := by decide

theorem base2_ne_nil : base2 ≠ [] := by decide

theorem base1_length : base1.length = 5 := rfl

theorem base2_length : base2.length = 5 := rfl

/-- A second `discoverOne` at a root whose observable version list and
created directories persisted replays without touching the state, reports
versions drawn from the first run's target, and counts the same number of
successful installs. -/
theorem run2_discoverOne {blocked : List (List String)} {fsX s1 : FS}
    {b : List String} (hbne : b ≠ [])
    (hvs : versionsOf s1 b = versionsOf (discoverOne blocked fsX b).2 b)
    (hmono : ∀ q, q ∈ (discoverOne blocked fsX b).2.dirs → q ∈ s1.dirs) :
    (discoverOne blocked s1 b).2 = s1 ∧
    (∀ v ∈ (discoverOne blocked s1 b).1.versions,
      v ∈ (discoverOne blocked fsX b).1.versions) ∧
    countVersions blocked b (discoverOne blocked s1 b).1.versions =
      countVersions blocked b (discoverOne blocked fsX b).1.versions := by
  have htm : tryMkdir blocked s1 b = s1 := by
    by_cases hbl : isBlocked blocked b = true
    · exact tryMkdir_blocked s1 hbl
    · refine tryMkdir_of_ancestors_mem ?_
      intro q hq
      exact hmono q (discoverOne_base_mem (by simpa using hbl) q hq)
  have hWs : versionsOf (tryMkdir blocked s1 b) b = versionsOf s1 b := by rw [htm]
  have spec1 := @discoverOne_versions_spec blocked fsX b hbne
  by_cases hN : versionsOf (tryMkdir blocked fsX b) b = []
  · -- first run seeded
    have hSpec := spec1.2 hN
    by_cases hW : versionsOf s1 b = []
    · -- everything under `b` is blocked; the second run re-seeds with no effect
      have hWs0 : versionsOf (tryMkdir blocked s1 b) b = [] := by rw [hWs, hW]
      rw [discoverOne_caseE hWs0]
      have hall : ∀ v ∈ seedVersions, isBlocked blocked (b ++ [v]) = true := by
        intro v hv
        have := hvs.symm.trans hW
        rw [hSpec.2] at this
        have := List.filter_eq_nil_iff.1 this v hv
        simpa using this
      have hrep : seedFold blocked b (tryMkdir blocked s1 b) seedVersions =
          tryMkdir blocked s1 b :=
        seedFold_replay seedVersions _ (fun v hv => .inl (hall v hv))
      refine ⟨by rw [hrep, htm], ?_, ?_⟩
      · intro v hv
        rw [hSpec.1]
        exact hv
      · rw [hSpec.1]
    · -- the seeded folders are now the observed versions
      have hWs1 : versionsOf (tryMkdir blocked s1 b) b ≠ [] := by rw [hWs]; exact hW
      rw [discoverOne_caseN hWs1]
      refine ⟨htm, ?_, ?_⟩
      · intro v hv
        rw [hSpec.1]
        have : v ∈ versionsOf s1 b := by rw [← hWs]; exact hv
        rw [hvs, hSpec.2] at this
        exact List.mem_of_mem_filter this
      · show countVersions blocked b (versionsOf (tryMkdir blocked s1 b) b) = _
        rw [hWs, hvs, hSpec.2, hSpec.1]
        exact countVersions_filter blocked b seedVersions _
          (fun v hok => by simp [versionInstallOk_seed hok])
  · -- first run observed versions directly
    have hSpec := spec1.1 hN
    have hW : versionsOf s1 b ≠ [] := by
      rw [hvs, hSpec.2]
      exact hN
    have hWs1 : versionsOf (tryMkdir blocked s1 b) b ≠ [] := by rw [hWs]; exact hW
    rw [discoverOne_caseN hWs1]
    refine ⟨htm, ?_, ?_⟩
    · intro v hv
      rw [hSpec.1]
      have : v ∈ versionsOf s1 b := by rw [← hWs]; exact hv
      rw [hvs, hSpec.2] at this
      exact this
    · show countVersions blocked b (versionsOf (tryMkdir blocked s1 b) b) = _
      rw [hWs, hvs, hSpec.2, hSpec.1]

/-- Core replay property: after one full `discover` + `install` pass, a
second pass discovers targets with the same install count and leaves the
filesystem unchanged. -/
theorem install_replay_core (blocked : List (List String)) (fs D1 D2 : FS)
    (t1 t2 : BridgeTarget) (M : Nat × FS) (s1 : FS)
    (hD1 : (discoverOne blocked fs base1).2 = D1)
    (ht1 : (discoverOne blocked fs base1).1 = t1)
    (hD2 : (discoverOne blocked D1 base2).2 = D2)
    (ht2 : (discoverOne blocked D1 base2).1 = t2)
    (hM : installVersions blocked base1 (0, D2) t1.versions = M)
    (hs1 : (installVersions blocked base2 M t2.versions).2 = s1) :
    (discoverAETargets blocked s1).2 = s1 ∧
    installAll blocked s1 (discoverAETargets blocked s1).1 =
      ((installVersions blocked base2 M t2.versions).1, s1) := by
  have htb1 : t1.base = base1 := by rw [← ht1]; exact discoverOne_base blocked fs base1
  have htb2 : t2.base = base2 := by rw [← ht2]; exact discoverOne_base blocked D1 base2
  -- directory-extension chains over the rest of run one
  have ext_disc2 : DirsExtend D1 D2 (PdiscOf blocked base2) := by
    rw [← hD2]
    exact discoverOne_extends blocked D1 base2
  have ext_inst1 : DirsExtend D2 M.2 (PinstOf blocked ⟨base1, t1.versions⟩) := by
    rw [← hM]
    exact installVersions_extends' blocked base1 t1.versions (0, D2)
  have ext_inst2 : DirsExtend M.2 s1 (PinstOf blocked ⟨base2, t2.versions⟩) := by
    rw [← hs1]
    exact installVersions_extends' blocked base2 t2.versions M
  have extAll1 : DirsExtend D1 s1
      (fun q => PdiscOf blocked base2 q ∨ PinstOf blocked ⟨base1, t1.versions⟩ q ∨
        PinstOf blocked ⟨base2, t2.versions⟩ q) :=
    DirsExtend.trans
      (DirsExtend.trans (ext_disc2.mono (fun _ h => Or.inl h))
        (ext_inst1.mono (fun _ h => Or.inr (Or.inl h))))
      (ext_inst2.mono (fun _ h => Or.inr (Or.inr h)))
  have extAll2 : DirsExtend D2 s1
      (fun q => PinstOf blocked ⟨base1, t1.versions⟩ q ∨
        PinstOf blocked ⟨base2, t2.versions⟩ q) :=
    DirsExtend.trans (ext_inst1.mono (fun _ h => Or.inl h))
      (ext_inst2.mono (fun _ h => Or.inr h))
  -- created children stay inside the state each discover produced
  have hP2own1 : ∀ v ∈ t1.versions,
      isBlocked blocked (startupDirOf base1 v) = false → base1 ++ [v] ∈ D1.dirs := by
    intro v hv hbl
    rw [← hD1]
    refine discoverOne_child_mem v ?_ hbl
    rw [ht1]
    exact hv
  have hP3own1 : isBlocked blocked base1 = false → base1 ∈ D1.dirs := by
    intro hbl
    rw [← hD1]
    exact discoverOne_base_mem hbl base1 (self_mem_ancestors base1_ne_nil)
  have hP2own2 : ∀ v ∈ t2.versions,
      isBlocked blocked (startupDirOf base2 v) = false → base2 ++ [v] ∈ D2.dirs := by
    intro v hv hbl
    rw [← hD2]
    refine discoverOne_child_mem v ?_ hbl
    rw [ht2]
    exact hv
  have hP3own2 : isBlocked blocked base2 = false → base2 ∈ D2.dirs := by
    intro hbl
    rw [← hD2]
    exact discoverOne_base_mem hbl base2 (self_mem_ancestors base2_ne_nil)
  have hexcl1 : ∀ q,
      (PdiscOf blocked base2 q ∨ PinstOf blocked ⟨base1, t1.versions⟩ q ∨
        PinstOf blocked ⟨base2, t2.versions⟩ q) →
      q ∉ D1.dirs → q.dropLast ≠ base1 ∧ q ≠ base1 := by
    intro q hq hnin
    rcases hq with h | h | h
    · exact exclusion_disc base1_length base2_length (Ne.symm base1_ne_base2) q h
    · exact exclusion_install (t := ⟨base1, t1.versions⟩) base1_length base1_length
        (fun _ => hP2own1) (fun _ => hP3own1) q h hnin
    · exact exclusion_install (t := ⟨base2, t2.versions⟩) base1_length base2_length
        (fun heq => absurd heq (Ne.symm base1_ne_base2))
        (fun heq => absurd heq (Ne.symm base1_ne_base2)) q h hnin
  have hexcl2 : ∀ q,
      (PinstOf blocked ⟨base1, t1.versions⟩ q ∨
        PinstOf blocked ⟨base2, t2.versions⟩ q) →
      q ∉ D2.dirs → q.dropLast ≠ base2 ∧ q ≠ base2 := by
    intro q hq hnin
    rcases hq with h | h
    · exact exclusion_install (t := ⟨base1, t1.versions⟩) base2_length base1_length
        (fun heq => absurd heq base1_ne_base2)
        (fun heq => absurd heq base1_ne_base2) q h hnin
    · exact exclusion_install (t := ⟨base2, t2.versions⟩) base2_length base2_length
        (fun _ => hP2own2) (fun _ => hP3own2) q h hnin
  have hvs1 : versionsOf s1 base1 = versionsOf D1 base1 :=
    extAll1.versionsOf_eq (fun q hP hn => (hexcl1 q hP hn).1)
      (fun q hP hn => (hexcl1 q hP hn).2)
  have hvs2 : versionsOf s1 base2 = versionsOf D2 base2 :=
    extAll2.versionsOf_eq (fun q hP hn => (hexcl2 q hP hn).1)
      (fun q hP hn => (hexcl2 q hP hn).2)
  -- the second run's discover replays
  have hrun1 := @run2_discoverOne blocked fs s1 base1
    base1_ne_nil (by rw [hD1]; exact hvs1)
    (by rw [hD1]; exact fun q h => extAll1.mem_dirs h)
  have hrun2 := @run2_discoverOne blocked D1 s1 base2
    base2_ne_nil (by rw [hD2]; exact hvs2)
    (by rw [hD2]; exact fun q h => extAll2.mem_dirs h)
  have hs1' : (discoverOne blocked s1 base1).2 = s1 := hrun1.1
  have hs2' : (discoverOne blocked s1 base2).2 = s1 := hrun2.1
  have hdisc2run : discoverAETargets blocked s1 =
      ([(discoverOne blocked s1 base1).1, (discoverOne blocked s1 base2).1], s1) := by
    rw [discoverAETargets_eq, hs1', hs2']
  -- replay conditions established by the first run's install phase
  have hready1 : ∀ v ∈ t1.versions,
      (isBlocked blocked (startupDirOf base1 v) = false →
        ∀ q ∈ ancestors (startupDirOf base1 v), q ∈ s1.dirs) ∧
      (versionInstallOk blocked base1 v = true →
        HasEntry s1.files (scriptPathOf base1 v) unifiedBridgeCode) := by
    intro v hv
    have hest := installVersions_establish' blocked base1 t1.versions (0, D2) v hv
    rw [hM] at hest
    constructor
    · intro hbl q hq
      have h1 := @installVersions_mem_dirs' blocked base2
        t2.versions M q (hest.1 hbl q hq)
      rw [hs1] at h1
      exact h1
    · intro hok
      have h1 := @installVersions_preserves_hasEntry' blocked base2
        (scriptPathOf base1 v) t2.versions M (hest.2 hok)
      rw [hs1] at h1
      exact h1
  have hready2 : ∀ v ∈ t2.versions,
      (isBlocked blocked (startupDirOf base2 v) = false →
        ∀ q ∈ ancestors (startupDirOf base2 v), q ∈ s1.dirs) ∧
      (versionInstallOk blocked base2 v = true →
        HasEntry s1.files (scriptPathOf base2 v) unifiedBridgeCode) := by
    intro v hv
    have hest := installVersions_establish' blocked base2 t2.versions M v hv
    rw [hs1] at hest
    exact hest
  -- the second run's install phase replays
  have htb1' : (discoverOne blocked s1 base1).1.base = base1 :=
    discoverOne_base blocked s1 base1
  have htb2' : (discoverOne blocked s1 base2).1.base = base2 :=
    discoverOne_base blocked s1 base2
  have hrepA : (installVersions blocked base1 (0, s1)
      (discoverOne blocked s1 base1).1.versions).2 = s1 :=
    installVersions_replay' (discoverOne blocked s1 base1).1.versions
      (fun v hv => hready1 v (by rw [← ht1]; exact hrun1.2.1 v hv))
  have hrepB : (installVersions blocked base2
      (installVersions blocked base1 (0, s1) (discoverOne blocked s1 base1).1.versions)
      (discoverOne blocked s1 base2).1.versions).2 = s1 := by
    have hcond : ∀ v ∈ (discoverOne blocked s1 base2).1.versions,
        (isBlocked blocked (startupDirOf base2 v) = false →
          ∀ q ∈ ancestors (startupDirOf base2 v),
            q ∈ (installVersions blocked base1 (0, s1)
              (discoverOne blocked s1 base1).1.versions).2.dirs) ∧
        (versionInstallOk blocked base2 v = true →
          HasEntry (installVersions blocked base1 (0, s1)
              (discoverOne blocked s1 base1).1.versions).2.files
            (scriptPathOf base2 v) unifiedBridgeCode) := by
      intro v hv
      have h0 := hready2 v (by rw [← ht2]; exact hrun2.2.1 v hv)
      constructor
      · intro hbl q hq
        rw [hrepA]
        exact h0.1 hbl q hq
      · intro hok
        rw [hrepA]
        exact h0.2 hok
    exact (installVersions_replay' (discoverOne blocked s1 base2).1.versions hcond).trans
      hrepA
  -- counts agree
  have hcntA : (installVersions blocked base1 (0, s1)
      (discoverOne blocked s1 base1).1.versions).1 =
      countVersions blocked base1 t1.versions := by
    rw [installVersions_fst']
    have hc := hrun1.2.2
    rw [ht1] at hc
    simpa using hc
  have hcntB : (installVersions blocked base2
      (installVersions blocked base1 (0, s1) (discoverOne blocked s1 base1).1.versions)
      (discoverOne blocked s1 base2).1.versions).1 =
      countVersions blocked base1 t1.versions + countVersions blocked base2 t2.versions := by
    rw [installVersions_fst', hcntA]
    have hc := hrun2.2.2
    rw [ht2] at hc
    rw [hc]
  have hn1 : (installVersions blocked base2 M t2.versions).1 =
      countVersions blocked base1 t1.versions + countVersions blocked base2 t2.versions := by
    rw [installVersions_fst', ← hM, installVersions_fst']
    simp
  refine ⟨by rw [hdisc2run], ?_⟩
  rw [hdisc2run]
  show installAll blocked s1
      [(discoverOne blocked s1 base1).1, (discoverOne blocked s1 base2).1] = _
  rw [installAll_pair, htb1', htb2']
  refine Prod.ext ?_ ?_
  · rw [hcntB, hn1]
  · rw [hrepB]

theorem installUnifiedBridge_snd (blocked : List (List String)) (f : FS) :
    (installUnifiedBridge blocked f).2 =
      (installAll blocked (discoverAETargets blocked f).2
        (discoverAETargets blocked f).1).2 := by
  rw [installUnifiedBridge_eq]
  split <;> rfl

theorem installUnifiedBridge_installCount (blocked : List (List String)) (f : FS) :
    (installUnifiedBridge blocked f).1.installCount =
      (installAll blocked (discoverAETargets blocked f).2
        (discoverAETargets blocked f).1).1 := by
  rw [installUnifiedBridge_eq]
  split
  · rename_i h
    exact h.symm
  · rfl

theorem installUnifiedBridge_all_blocked (blocked : List (List String)) (fs : FS)
    (h : ∀ p, isBlocked blocked p = true) :
    installUnifiedBridge blocked fs =
      (⟨false, 0, "Could not create any Startup folder"⟩, fs) := by
  have htm : ∀ (g : FS) (p : List String), tryMkdir blocked g p = g :=
    fun g p => tryMkdir_blocked g (h p)
  have hdo : ∀ (g : FS) (b : List String), (discoverOne blocked g b).2 = g := by
    intro g b
    by_cases hN : versionsOf (tryMkdir blocked g b) b = []
    · rw [discoverOne_caseE hN]
      show seedFold blocked b (tryMkdir blocked g b) seedVersions = g
      rw [htm]
      exact seedFold_replay seedVersions g (fun v _ => .inl (h _))
    · rw [discoverOne_caseN hN]
      exact htm g b
  have hIV : ∀ (b : List String) (vs : List String) (acc : Nat × FS),
      installVersions blocked b acc vs = (acc.1, acc.2) := by
    intro b vs acc
    refine Prod.ext ?_ ?_
    · rw [installVersions_fst']
      have hz : countVersions blocked b vs = 0 := by
        unfold countVersions
        rw [List.filter_eq_nil_iff.2 (fun v _ => by simp [versionInstallOk, h])]
        rfl
      rw [hz]
      simp
    · exact installVersions_replay' vs (fun v _ =>
        ⟨fun hbl => absurd (h (startupDirOf b v)) (by simp [hbl]),
         fun hok => absurd hok (by simp [versionInstallOk, h])⟩)
  have e1 : (discoverAETargets blocked fs).2 = fs := by
    show (discoverOne blocked (discoverOne blocked fs base1).2 base2).2 = fs
    rw [hdo, hdo]
  have e2 : (discoverAETargets blocked fs).1 =
      [(discoverOne blocked fs base1).1, (discoverOne blocked fs base2).1] := by
    show [(discoverOne blocked fs base1).1,
      (discoverOne blocked (discoverOne blocked fs base1).2 base2).1] = _
    rw [hdo fs base1]
  rw [installUnifiedBridge_eq, e1, e2, installAll_pair,
    discoverOne_base, discoverOne_base, hIV, hIV]
  simp

end Install

/-- **C9**.  `installUnifiedBridge` is idempotent and never raises: for
every environment (any blocked-path set and any starting filesystem),
running it twice consecutively yields the same `installCount` both times
and the second run leaves the filesystem exactly as the first run left it
(each version's startup script is overwritten in place, no duplicate files
are created); and when every write fails, it returns `installCount = 0`
with the failure message instead of throwing. -/
theorem installUnifiedBridge_idempotent_and_failsafe
    (blocked : List (List String)) (fs : Install.FS) :
    ((Install.installUnifiedBridge blocked
        (Install.installUnifiedBridge blocked fs).2).1.installCount =
      (Install.installUnifiedBridge blocked fs).1.installCount ∧
     (Install.installUnifiedBridge blocked
        (Install.installUnifiedBridge blocked fs).2).2 =
      (Install.installUnifiedBridge blocked fs).2) ∧
    ((∀ p, Install.isBlocked blocked p = true) →
      Install.installUnifiedBridge blocked fs =
        (⟨false, 0, "Could not create any Startup folder"⟩, fs)) := by
  refine ⟨?_, Install.installUnifiedBridge_all_blocked blocked fs⟩
  have hrun1eq : Install.installAll blocked (Install.discoverAETargets blocked fs).2
      (Install.discoverAETargets blocked fs).1 =
      Install.installVersions blocked Install.base2
        (Install.installVersions blocked Install.base1
          (0, (Install.discoverOne blocked
            (Install.discoverOne blocked fs Install.base1).2 Install.base2).2)
          (Install.discoverOne blocked fs Install.base1).1.versions)
        (Install.discoverOne blocked
          (Install.discoverOne blocked fs Install.base1).2 Install.base2).1.versions := by
    have e1 : (Install.discoverAETargets blocked fs).2 =
        (Install.discoverOne blocked
          (Install.discoverOne blocked fs Install.base1).2 Install.base2).2 := rfl
    have e2 : (Install.discoverAETargets blocked fs).1 =
        [(Install.discoverOne blocked fs Install.base1).1,
         (Install.discoverOne blocked
           (Install.discoverOne blocked fs Install.base1).2 Install.base2).1] := rfl
    rw [e1, e2, Install.installAll_pair, Install.discoverOne_base,
      Install.discoverOne_base]
  have hcore := Install.install_replay_core blocked fs _ _ _ _ _ _
    rfl rfl rfl rfl rfl rfl
  rcases hcore with ⟨hdisc_replay, hinstall_replay⟩
  have hS : (Install.installUnifiedBridge blocked fs).2 =
      (Install.installVersions blocked Install.base2
        (Install.installVersions blocked Install.base1
          (0, (Install.discoverOne blocked
            (Install.discoverOne blocked fs Install.base1).2 Install.base2).2)
          (Install.discoverOne blocked fs Install.base1).1.versions)
        (Install.discoverOne blocked
          (Install.discoverOne blocked fs Install.base1).2 Install.base2).1.versions).2 := by
    rw [Install.installUnifiedBridge_snd, hrun1eq]
  constructor
  · rw [Install.installUnifiedBridge_installCount blocked
      ((Install.installUnifiedBridge blocked fs).2),
      Install.installUnifiedBridge_installCount blocked fs, hrun1eq, hS,
      hdisc_replay, hinstall_replay]
  · rw [Install.installUnifiedBridge_snd blocked
      ((Install.installUnifiedBridge blocked fs).2), hS,
      hdisc_replay, hinstall_replay]

/-- **C9** (witness): in an environment where every write fails,
`installUnifiedBridge` returns `installCount = 0` with the failure message
and leaves the (empty) filesystem untouched. -/
theorem installUnifiedBridge_idempotent_and_failsafe_witness :
    Install.installUnifiedBridge [[]] ⟨[], []⟩ =
      (⟨false, 0, "Could not create any Startup folder"⟩, ⟨[], []⟩) :=
  (installUnifiedBridge_idempotent_and_failsafe [[]] ⟨[], []⟩).2
    (fun p => by simp [Install.isBlocked, List.isPrefixOf])

end Bridge
